import Mathlib

/-!
Verification development for the tender-document analysis backend.
Strings are modelled as `List Char` (ASCII/UTF-16 code points coincide on
all inputs of interest).  JavaScript's `JSON.parse`/`JSON.stringify` are
modelled by an executable JSON parser and serializer over a `Json` value
type whose numbers are integers (the backend only ever stores integral
page numbers; float literals, `\u` escapes and leading-zero rejection are
outside the model and are noted where relevant).
-/

/-! ### Character helpers (named to avoid banned literal characters) -/

def btickC : Char := Char.ofNat 96
def lbraceC : Char := Char.ofNat 123
def rbraceC : Char := Char.ofNat 125
def lbrackC : Char := Char.ofNat 91
def rbrackC : Char := Char.ofNat 93
def quotC : Char := Char.ofNat 34
def bslashC : Char := Char.ofNat 92
def nbspC : Char := Char.ofNat 160

def isDigitC (c : Char) : Bool := decide (48 ≤ c.toNat ∧ c.toNat ≤ 57)

def isAlphaC (c : Char) : Bool :=
  decide ((65 ≤ c.toNat ∧ c.toNat ≤ 90) ∨ (97 ≤ c.toNat ∧ c.toNat ≤ 122))

/-- Whitespace accepted between JSON tokens by `JSON.parse`. -/
def isJsonWs (c : Char) : Bool := c = ' ' || c = '\t' || c = '\n' || c = '\r'

/-- Whitespace removed by JavaScript `String.prototype.trim` and matched
by the regex class used in `preprocess` (the common subset that occurs in
this system's inputs). -/
def isJsWs (c : Char) : Bool :=
  isJsonWs c || c = nbspC || c.toNat = 11 || c.toNat = 12

def skipWs (l : List Char) : List Char := l.dropWhile isJsonWs

def ltrimJs (l : List Char) : List Char := l.dropWhile isJsWs

def rtrimJs (l : List Char) : List Char := (l.reverse.dropWhile isJsWs).reverse

/-- Model of JavaScript `String.prototype.trim`. -/
def jsTrim (l : List Char) : List Char := ltrimJs (rtrimJs l)

/-- Model of `String.prototype.indexOf` for a single character
(`none` plays the role of `-1`). -/
def indexOfChar : List Char → Char → Option Nat
  | [], _ => none
  | x :: r, c => if x = c then some 0 else (indexOfChar r c).map (· + 1)

/-- Model of `String.prototype.lastIndexOf` for a single character. -/
def lastIndexOfChar (l : List Char) (c : Char) : Option Nat :=
  (indexOfChar l.reverse c).map (fun i => l.length - 1 - i)

/-- Model of `String.prototype.slice(a, b)` for `0 ≤ a ≤ b` (an empty
result when `b ≤ a`, exactly as in JavaScript). -/
def jsSlice (l : List Char) (a b : Nat) : List Char := (l.drop a).take (b - a)

/-- Model of `String.prototype.split(' ')` (single-space separator;
consecutive spaces yield empty pieces, the result is never `[]`). -/
def splitSp : List Char → List (List Char)
  | [] => [[]]
  | c :: r =>
    match splitSp r with
    | [] => [[]]
    | h :: t => if c = ' ' then [] :: h :: t else (c :: h) :: t

/-- Model of `Array.prototype.join(' ')`. -/
def joinSp (l : List (List Char)) : List Char := List.intercalate [' '] l

/-- Model of `Array.prototype.slice(-k)`: JavaScript treats `-0` as `0`,
returning the whole array. -/
def jsSliceLast (l : List (List Char)) (k : Nat) : List (List Char) :=
  if k = 0 then l else l.drop (l.length - k)

/-! ### JSON values -/

mutual

inductive Json where
  | null : Json
  | bool (b : Bool) : Json
  | num (n : Int) : Json
  | str (s : List Char) : Json
  | arr (xs : JsonList) : Json
  | obj (fs : JsonObj) : Json
  deriving DecidableEq

inductive JsonList where
  | lnil : JsonList
  | lcons (hd : Json) (tl : JsonList) : JsonList
  deriving DecidableEq

inductive JsonObj where
  | onil : JsonObj
  | ocons (k : List Char) (v : Json) (tl : JsonObj) : JsonObj
  deriving DecidableEq

end

/-! ### Serialization (model of `JSON.stringify` output shape) -/

def natCharsAux : Nat → Nat → List Char
  | 0, _ => []
  | f + 1, n =>
    if n < 10 then [Char.ofNat (48 + n)]
    else natCharsAux f (n / 10) ++ [Char.ofNat (48 + n % 10)]

def natChars (n : Nat) : List Char := natCharsAux (n + 1) n

def intChars : Int → List Char
  | .ofNat m => natChars m
  | .negSucc m => '-' :: natChars (m + 1)

def escapeStr : List Char → List Char
  | [] => []
  | c :: r =>
    (if c = quotC then [bslashC, quotC]
     else if c = bslashC then [bslashC, bslashC]
     else [c]) ++ escapeStr r

mutual

def serJson : Json → List Char
  | .null => 'n' :: ['u', 'l', 'l']
  | .bool true => 't' :: ['r', 'u', 'e']
  | .bool false => 'f' :: ['a', 'l', 's', 'e']
  | .num n => intChars n
  | .str s => quotC :: escapeStr s ++ [quotC]
  | .arr xs => lbrackC :: serElems xs ++ [rbrackC]
  | .obj fs => lbraceC :: serMembers fs ++ [rbraceC]

def serElems : JsonList → List Char
  | .lnil => []
  | .lcons x .lnil => serJson x
  | .lcons x (.lcons y tl) => serJson x ++ ',' :: serElems (.lcons y tl)

def serMembers : JsonObj → List Char
  | .onil => []
  | .ocons k v .onil => quotC :: escapeStr k ++ quotC :: ':' :: serJson v
  | .ocons k v (.ocons k2 v2 tl) =>
    quotC :: escapeStr k ++ quotC :: ':' :: serJson v ++
      ',' :: serMembers (.ocons k2 v2 tl)

end

/-! ### Parsing (model of `JSON.parse` on the integer fragment) -/

def expectChars : List Char → List Char → Option (List Char)
  | [], l => some l
  | _ :: _, [] => none
  | p :: ps, c :: r => if c = p then expectChars ps r else none

def digitStep (a : Nat) (c : Char) : Nat := 10 * a + (c.toNat - 48)

def parseNatAux : Nat → List Char → Nat × List Char
  | acc, [] => (acc, [])
  | acc, c :: r =>
    if isDigitC c then parseNatAux (digitStep acc c) r else (acc, c :: r)

def parseNat : List Char → Option (Nat × List Char)
  | [] => none
  | c :: r => if isDigitC c then some (parseNatAux (digitStep 0 c) r) else none

def unescapeChar (e : Char) : Option Char :=
  if e = quotC then some quotC
  else if e = bslashC then some bslashC
  else if e = '/' then some '/'
  else if e = 'n' then some '\n'
  else if e = 't' then some '\t'
  else if e = 'r' then some '\r'
  else if e = 'b' then some (Char.ofNat 8)
  else if e = 'f' then some (Char.ofNat 12)
  else none

def parseStrAux : List Char → Option (List Char × List Char)
  | [] => none
  | c :: r =>
    if c = quotC then some ([], r)
    else if c = bslashC then
      match r with
      | [] => none
      | e :: r2 =>
        match unescapeChar e with
        | some u =>
          match parseStrAux r2 with
          | some (s, rest) => some (u :: s, rest)
          | none => none
        | none => none
    else
      match parseStrAux r with
      | some (s, rest) => some (c :: s, rest)
      | none => none

mutual

def parseValue : Nat → List Char → Option (Json × List Char)
  | 0, _ => none
  | f + 1, l =>
    match skipWs l with
    | [] => none
    | c :: r =>
      if c = lbraceC then
        match skipWs r with
        | [] => none
        | c2 :: r2 =>
          if c2 = rbraceC then some (.obj .onil, r2)
          else
            match parseMembers f (c2 :: r2) with
            | some (fs, rest) => some (.obj fs, rest)
            | none => none
      else if c = lbrackC then
        match skipWs r with
        | [] => none
        | c2 :: r2 =>
          if c2 = rbrackC then some (.arr .lnil, r2)
          else
            match parseElems f (c2 :: r2) with
            | some (xs, rest) => some (.arr xs, rest)
            | none => none
      else if c = quotC then
        match parseStrAux r with
        | some (s, rest) => some (.str s, rest)
        | none => none
      else if c = 't' then
        (expectChars ['r', 'u', 'e'] r).map (fun rest => (.bool true, rest))
      else if c = 'f' then
        (expectChars ['a', 'l', 's', 'e'] r).map (fun rest => (.bool false, rest))
      else if c = 'n' then
        (expectChars ['u', 'l', 'l'] r).map (fun rest => (.null, rest))
      else if c = '-' then
        match parseNat r with
        | some (m, rest) => some (.num (-(m : Int)), rest)
        | none => none
      else if isDigitC c then
        match parseNat (c :: r) with
        | some (m, rest) => some (.num (m : Int), rest)
        | none => none
      else none

def parseElems : Nat → List Char → Option (JsonList × List Char)
  | 0, _ => none
  | f + 1, l =>
    match parseValue f l with
    | none => none
    | some (v, r) =>
      match skipWs r with
      | [] => none
      | c :: r2 =>
        if c = ',' then
          match parseElems f r2 with
          | some (tl, r3) => some (.lcons v tl, r3)
          | none => none
        else if c = rbrackC then some (.lcons v .lnil, r2)
        else none

def parseMembers : Nat → List Char → Option (JsonObj × List Char)
  | 0, _ => none
  | f + 1, l =>
    match skipWs l with
    | [] => none
    | c :: r =>
      if c = quotC then
        match parseStrAux r with
        | some (k, r1) =>
          match skipWs r1 with
          | [] => none
          | c2 :: r2 =>
            if c2 = ':' then
              match parseValue f r2 with
              | some (v, r3) =>
                match skipWs r3 with
                | [] => none
                | c3 :: r4 =>
                  if c3 = ',' then
                    match parseMembers f r4 with
                    | some (tl, r5) => some (.ocons k v tl, r5)
                    | none => none
                  else if c3 = rbraceC then some (.ocons k v .onil, r4)
                  else none
              | none => none
            else none
        | none => none
      else none

end

/-- Model of `JSON.parse`: parse one value, allow surrounding whitespace,
reject trailing content. -/
def jsonParse (l : List Char) : Option Json :=
  match parseValue (l.length + 1) l with
  | some (v, rest) => if skipWs rest = [] then some v else none
  | none => none

/-! ### extractJson (both variants of the source define the same function:
strip every occurrence of six consecutive backticks, trim, try a direct
parse, then parse the substring from the first open brace to the last
close brace; failure models the thrown error / propagated SyntaxError). -/

/-- True when the list starts with six consecutive backticks. -/
def startsWithSixBT (l : List Char) : Bool :=
  decide (l.take 6 = [btickC, btickC, btickC, btickC, btickC, btickC])

/-- One fuel step per character: model of
`text.replace(re6backticks, '')` with a global regex, which removes
non-overlapping six-backtick runs scanning left to right. -/
def stripBTAux : Nat → List Char → List Char
  | 0, l => l
  | _ + 1, [] => []
  | f + 1, c :: r =>
    if startsWithSixBT (c :: r) then stripBTAux f ((c :: r).drop 6)
    else c :: stripBTAux f r

def stripBT (l : List Char) : List Char := stripBTAux l.length l

/-- Decidable check that a six-backtick run occurs somewhere. -/
def containsSixBT : List Char → Bool
  | [] => false
  | c :: r => startsWithSixBT (c :: r) || containsSixBT r

/-- The cleaned text `clean` computed by `extractJson`. -/
def cleanOf (t : List Char) : List Char := jsTrim (stripBT t)

/-- Model of `extractJson` (src/unnamed/part_000 and part_001):
`none` stands for the thrown `InvalidResponseFormat` error. -/
def extractJson (t : List Char) : Option Json :=
  let clean := cleanOf t
  match jsonParse clean with
  | some v => some v
  | none =>
    match indexOfChar clean lbraceC, lastIndexOfChar clean rbraceC with
    | some first, some last => jsonParse (jsSlice clean first (last + 1))
    | _, _ => none

/-! ### Text normalizer (`preprocess` in the source): collapse whitespace
runs to a single space, then trim. -/

/-- Collapse every maximal run of whitespace to a single space
(model of `.replace(re-whitespace-runs, ' ')`; the JavaScript `\s` class
includes the non-breaking space, so the second NBSP replace in the source
is a no-op). -/
def collapseWs : List Char → List Char
  | [] => []
  | c :: r =>
    if isJsWs c then
      match collapseWs r with
      | ' ' :: t => ' ' :: t
      | t => ' ' :: t
    else c :: collapseWs r

def preprocess (t : List Char) : List Char := jsTrim (collapseWs t)

/-! ### Chunker (`smartChunks`, src/unnamed/part_001; the near-identical
`smartChunkText` in gem.js differs only in trimming the sentence before
the length test). -/

/-- Sentence terminators of the regex class. -/
def isTermC (c : Char) : Bool := c = '.' || c = '!' || c = '?'

/-- Model of `txt.match(sentence-regex)` where the regex is one-or-more
non-terminators followed by one-or-more terminators, matched globally
left to right; a trailing run with no terminator is not a match (and no
later start inside it can match either). -/
def sentencesAux : Nat → List Char → List (List Char)
  | 0, _ => []
  | f + 1, l =>
    let l1 := l.dropWhile isTermC
    match l1 with
    | [] => []
    | _ :: _ =>
      let body := l1.takeWhile (fun c => !isTermC c)
      let r1 := l1.dropWhile (fun c => !isTermC c)
      match r1 with
      | [] => []
      | _ :: _ =>
        let terms := r1.takeWhile isTermC
        let r2 := r1.dropWhile isTermC
        (body ++ terms) :: sentencesAux f r2

def sentencesOf (l : List Char) : List (List Char) := sentencesAux l.length l

/-- The sentence list actually used by `smartChunks`: a null `match`
result is replaced by `[txt]`. -/
def sentencesUsed (txt : List Char) : List (List Char) :=
  match sentencesOf txt with
  | [] => [txt]
  | l => l

/-- The loop body of `smartChunks`: `out` accumulates pushed chunks,
`cur` is the current accumulator. -/
def chunkLoop (maxSz K : Nat) :
    List (List Char) → List (List Char) → List Char → List (List Char)
  | [], out, cur => if jsTrim cur = [] then out else out ++ [jsTrim cur]
  | sent :: rest, out, cur =>
    if cur.length + sent.length > maxSz ∧ cur ≠ [] then
      chunkLoop maxSz K rest (out ++ [jsTrim cur])
        (joinSp (jsSliceLast (splitSp cur) K) ++ ' ' :: sent)
    else
      chunkLoop maxSz K rest out
        (cur ++ if cur ≠ [] then ' ' :: jsTrim sent else jsTrim sent)

/-- Model of `smartChunks(txt, max, ov)` (src/unnamed/part_001 lines
65-78). -/
def smartChunks (txt : List Char) (maxSz ov : Nat) : List (List Char) :=
  if txt.length ≤ maxSz then [txt]
  else chunkLoop maxSz (ov / 6) (sentencesUsed txt) [] []

/-! ### Fixed field list and field back-fill -/

/-- `FIELD_LIST` from the source (identical in all variants). -/
def FIELD_LIST : List (List Char) :=
  ["ClientName", "FundingAgency", "BiddingSystem", "NameOfWork",
   "ProjectLocation", "CompletionPeriod", "EstimatedCost",
   "TenderDocumentCost", "EMD", "ImportantDates", "BidValidity",
   "TenderSecurity", "JointVenture", "PowerOfAttorney",
   "GroundsForBidRejection", "EligibilityCriteria", "SiteVisit",
   "GeotechnicalReports", "LandAvailability",
   "OtherLandAvailability"].map String.toList

/-- Property read `o[k]` on a JavaScript object literal parsed from JSON:
the last occurrence of a duplicated key wins, as in `JSON.parse`. -/
def jsGetMember : JsonObj → List Char → Option Json
  | .onil, _ => none
  | .ocons k v tl, key =>
    match jsGetMember tl key with
    | some r => some r
    | none => if k = key then some v else none

/-- Model of the `k in o` containment test. -/
def objHasKey : JsonObj → List Char → Bool
  | .onil, _ => false
  | .ocons k _ tl, key => k = key || objHasKey tl key

/-- Property assignment `o[k] = v` for a key not yet present: appended in
insertion order (at the end). -/
def objSnoc : JsonObj → List Char → Json → JsonObj
  | .onil, key, v => .ocons key v .onil
  | .ocons k w tl, key, v => .ocons k w (objSnoc tl key v)

/-- The back-fill loop
`for (const k of FIELD_LIST) if (!(k in data)) data[k] = null;`. -/
def backfillObj (fs : JsonObj) : JsonObj :=
  FIELD_LIST.foldl (fun o k => if objHasKey o k then o else objSnoc o k .null) fs

/-- The back-fill step applied to the parsed fields value.  JavaScript
throws a TypeError when `k in x` is applied to a primitive; for an array
the loop merely attaches non-index properties, which the model drops. -/
def backfillJson : Json → Option Json
  | .obj fs => some (.obj (backfillObj fs))
  | .arr xs => some (.arr xs)
  | _ => none

/-! ### Submittal normalization (src/unnamed/part_000 lines 175-181) -/

/-- Truthiness of a JSON value as a JavaScript value (objects and arrays
are always truthy). -/
def jsTruthy : Json → Bool
  | .null => false
  | .bool b => b
  | .num n => decide (n ≠ 0)
  | .str s => decide (s ≠ [])
  | .arr _ => true
  | .obj _ => true

/-- Property access `x.key` on an arbitrary JSON value: `none` models
`undefined`; accessing a property of `null` throws, modelled by the
error result. -/
def jsProp : Json → List Char → Option (Option Json)
  | .null, _ => none
  | .obj fs, key => some (jsGetMember fs key)
  | _, _ => some none

/-- Evaluate `x.key || dflt`. -/
def jsPropOr (x : Json) (key : List Char) (dflt : Json) : Option Json :=
  match jsProp x key with
  | none => none
  | some none => some dflt
  | some (some v) => some (if jsTruthy v then v else dflt)

/-- Evaluate `x.page == null ? null : x.page` (loose equality with null
is true exactly for null and undefined). -/
def jsPageOf (x : Json) : Option Json :=
  match jsProp x ("page".toList) with
  | none => none
  | some none => some .null
  | some (some v) => some (match v with | .null => .null | w => w)

/-- Normalize one submittal element:
`({ item: x.item || '', page: ..., reason: x.reason || '' })`. -/
def normSub (x : Json) : Option Json :=
  match jsPropOr x ("item".toList) (.str []) with
  | none => none
  | some iv =>
    match jsPageOf x with
    | none => none
    | some pv =>
      match jsPropOr x ("reason".toList) (.str []) with
      | none => none
      | some rv =>
        some (.obj (.ocons ("item".toList) iv
          (.ocons ("page".toList) pv (.ocons ("reason".toList) rv .onil))))

/-- Convert the parsed list syntax to a Lean list for iteration. -/
def JsonList.toList : JsonList → List Json
  | .lnil => []
  | .lcons x tl => x :: tl.toList

/-- Evaluate `submittalsData.submittals || []` followed by the `.map`
call: a truthy non-array value has no `.map` method and throws. -/
def submittalsArrayOf (sd : Json) : Option (List Json)  :=
  match jsProp sd ("submittals".toList) with
  | none => none
  | some none => some []
  | some (some v) =>
    if jsTruthy v then
      match v with
      | .arr xs => some xs.toList
      | _ => none
    else some []

def mapNormSub : List Json → Option (List Json)
  | [] => some []
  | x :: r =>
    match normSub x with
    | none => none
    | some y =>
      match mapNormSub r with
      | none => none
      | some t => some (y :: t)

/-! ### Records and the two request flows -/

inductive Status where
  | pending
  | processing
  | completed
  | failed
  deriving DecidableEq

inductive PromptKind where
  | fieldsPrompt
  | submittalsPrompt
  deriving DecidableEq

/-- Externally observable effects of a pipeline run. -/
inductive Ev where
  | setStatus (s : Status)
  | callGemini (k : PromptKind)
  | sleep (ms : Nat)
  deriving DecidableEq

/-- The stored contract record (mongoose always materializes the
`submittals` array, defaulting to empty). -/
structure ContractRec where
  pdfName : List Char
  fields : Option Json := none
  submittals : List Json := []
  status : Status := .pending
  errorMessage : Option (List Char) := none
  deriving DecidableEq

/-- The successful tail of `processContract`: parse the fields response,
back-fill, parse the submittals response, default and normalize the
submittal list. -/
def finishProcess (subResp fldResp : List Char) : Option (Json × List Json) :=
  match extractJson fldResp with
  | none => none
  | some fd =>
    match backfillJson fd with
    | none => none
    | some fd2 =>
      match extractJson subResp with
      | none => none
      | some sd =>
        match submittalsArrayOf sd with
        | none => none
        | some xs =>
          match mapNormSub xs with
          | none => none
          | some subs => some (fd2, subs)

/-- Event trace of the async background task `processContract`
(src/unnamed/part_000 lines 138-198); `text` is the preprocessed PDF
text and the two responses are the provider reply texts. -/
def processEvents (text subResp fldResp : List Char) : List Ev :=
  .setStatus .processing ::
    (if text = [] then [.setStatus .failed]
     else
       .callGemini .submittalsPrompt :: .sleep 15000 ::
         .callGemini .fieldsPrompt ::
           [.setStatus (match finishProcess subResp fldResp with
             | some _ => .completed
             | none => .failed)])

/-- Final record state written by `processContract` starting from the
freshly created record `r0`. -/
def processFinal (r0 : ContractRec) (text subResp fldResp : List Char) :
    ContractRec :=
  if text = [] then
    { r0 with status := .failed,
              errorMessage := some ("Empty or non-text PDF".toList) }
  else
    match finishProcess subResp fldResp with
    | some (fd, subs) =>
      { r0 with fields := some fd, submittals := subs, status := .completed }
    | none =>
      { r0 with status := .failed,
                errorMessage := some ("Model response is not valid JSON".toList) }

/-- Statuses a record passes through in the asynchronous variant: the
creation status followed by every status written by the background task. -/
def statusHistory (text subResp fldResp : List Char) : List Status :=
  .pending ::
    (processEvents text subResp fldResp).filterMap
      (fun e => match e with | .setStatus s => some s | _ => none)

/-- Allowed forward transitions of the record status. -/
def forwardStep (a b : Status) : Prop :=
  (a = .pending ∧ b = .processing) ∨
    (a = .processing ∧ (b = .completed ∨ b = .failed))

instance : DecidablePred fun p : Status × Status => forwardStep p.1 p.2 :=
  fun _ => by unfold forwardStep; infer_instance

/-- HTTP response model: status code plus whether a record was stored. -/
structure SyncOutcome where
  events : List Ev
  code : Nat
  saved : Option ContractRec
  deriving DecidableEq

/-- Model of the combined synchronous handler `app.post('/api/summarize')`
in gem3-workingWithHistory.js (lines 460-545): submittals request, fixed
delay, fields request, back-fill, default of the submittal list (this
variant performs no per-element normalization), then a single save. -/
def summarizeSync (filePresent : Bool) (rawText subResp fldResp : List Char) :
    SyncOutcome :=
  if !filePresent then ⟨[], 400, none⟩
  else
    let text := preprocess rawText
    if text = [] then ⟨[], 400, none⟩
    else
      let evs := [Ev.callGemini .submittalsPrompt, Ev.sleep 15000,
                  Ev.callGemini .fieldsPrompt]
      match extractJson fldResp with
      | none => ⟨evs, 500, none⟩
      | some fd =>
        match backfillJson fd with
        | none => ⟨evs, 500, none⟩
        | some fd2 =>
          match extractJson subResp with
          | none => ⟨evs, 500, none⟩
          | some sd =>
            match submittalsArrayOf sd with
            | none => ⟨evs, 500, none⟩
            | some subs =>
              ⟨evs, 200,
               some { pdfName := [], fields := some fd2, submittals := subs,
                      status := .pending }⟩

/-- Model of the asynchronous upload endpoint (src/unnamed/part_000 lines
205-235): the record is created with status pending and the response is
sent before the background task runs. -/
structure AsyncOutcome where
  code : Nat
  created : Option ContractRec
  events : List Ev
  finalRecord : Option ContractRec
  deriving DecidableEq

def summarizeAsync (filePresent : Bool)
    (pdfName rawText subResp fldResp : List Char) : AsyncOutcome :=
  if !filePresent then ⟨400, none, [], none⟩
  else
    let r0 : ContractRec := { pdfName := pdfName }
    let text := preprocess rawText
    ⟨200, some r0, processEvents text subResp fldResp,
     some (processFinal r0 text subResp fldResp)⟩

/-- Model of the status poll endpoint `app.get('/api/status/:id')`
(src/unnamed/part_000 lines 240-257). -/
structure StatusView where
  status : Status
  hasFields : Bool
  hasSubmittals : Bool
  deriving DecidableEq

def statusEndpoint (r : ContractRec) : StatusView :=
  { status := r.status,
    hasFields := match r.fields with | none => false | some j => jsTruthy j,
    hasSubmittals := decide (r.submittals.length > 0) }

/-! ### Derived observation helpers used by the claim statements -/

/-- The provider calls of a trace, in order. -/
def callsOf (evs : List Ev) : List PromptKind :=
  evs.filterMap (fun e => match e with | .callGemini k => some k | _ => none)

/-- Provider calls and delays of a trace, in order. -/
def providerTrace (evs : List Ev) : List Ev :=
  evs.filter (fun e =>
    match e with | .callGemini _ => true | .sleep _ => true | _ => false)

/-- Characters that make up "prose" noise around a JSON payload: letters,
whitespace and common punctuation (no braces, brackets, quotes, digits,
sign or backtick). -/
def proseChar (c : Char) : Bool :=
  isAlphaC c || c = ' ' || c = '\n' || c = '\t' ||
    c = ',' || c = '.' || c = ':' || c = ';' || c = '!' || c = '?'

/-- A payload wrapped in a markdown code fence, the way a provider
returns it. -/
def fenced (s : List Char) : List Char :=
  [btickC, btickC, btickC] ++ "json\n".toList ++ s ++
    '\n' :: [btickC, btickC, btickC]

/-- Head is not a digit (the serialization of a number must not be
followed directly by another digit for the parse to stop). -/
def noDigitHead : List Char → Bool
  | [] => true
  | c :: _ => !isDigitC c

/-- The normalized `item` component `x.item || ''` for an object element. -/
def itemD (fs : JsonObj) : Json :=
  match jsGetMember fs ("item".toList) with
  | none => .str []
  | some v => if jsTruthy v then v else .str []

/-- The normalized `page` component `x.page == null ? null : x.page`. -/
def pageD (fs : JsonObj) : Json :=
  match jsGetMember fs ("page".toList) with
  | none => .null
  | some v => match v with | .null => .null | w => w

/-- The normalized `reason` component `x.reason || ''`. -/
def reasonD (fs : JsonObj) : Json :=
  match jsGetMember fs ("reason".toList) with
  | none => .str []
  | some v => if jsTruthy v then v else .str []

/-- The forms a chunk may take beyond the ordinary size bound: the trim
of a single matched sentence (seeded into an empty accumulator), or the
trim of at most `K` overlap words carried from a previous accumulator
followed by a single raw sentence. -/
def chunkException (sents : List (List Char)) (K : Nat) (c : List Char) : Prop :=
  (∃ s, s ∈ sents ∧ c = jsTrim s) ∨
    (∃ s prev, s ∈ sents ∧
      c = jsTrim (joinSp (jsSliceLast (splitSp prev) K) ++ ' ' :: s))

/-- The invariant satisfied by every emitted chunk. -/
def chunkOk (sents : List (List Char)) (maxSz K : Nat) (c : List Char) : Prop :=
  c.length ≤ maxSz + 1 ∨ chunkException sents K c

/-- The mid-loop accumulator invariant. -/
def curOk (sents : List (List Char)) (maxSz K : Nat) (cur : List Char) : Prop :=
  cur = [] ∨ cur.length ≤ maxSz + 1 ∨
    (∃ s, s ∈ sents ∧ cur = jsTrim s) ∨
    (∃ s prev, s ∈ sents ∧
      cur = joinSp (jsSliceLast (splitSp prev) K) ++ ' ' :: s)

/-- Concrete text exhibiting the chunker's oversize behaviour. -/
def exTxt : List Char := "ab.cd.e.".toList

/-- Concrete JSON object whose serialization contains six consecutive
backticks. -/
def exBT : Json :=
  .obj (.ocons ("a".toList)
    (.str [btickC, btickC, btickC, btickC, btickC, btickC]) .onil)

/-- Concrete small JSON object used by witnesses. -/
def exObj : Json := .obj (.ocons ("a".toList) (.str ("x".toList)) .onil)

/-- Concrete submittal element carrying only an item member: no page and no
reason member. -/
def exSub : JsonObj := .ocons ("item".toList) (.str ("x".toList)) .onil

/-- Concrete submittals response: a one-element array holding exSub. -/
def exSubResp : List Char :=
  serJson (.obj (.ocons ("submittals".toList)
    (.arr (.lcons (.obj exSub) .lnil)) .onil))

/-! ## Lemmas about the JSON print-parse round trip -/

theorem skipWs_cons_of (c : Char) (r : List Char) (h : isJsonWs c = false) :
    skipWs (c :: r) = c :: r := by
  simp [skipWs, List.dropWhile_cons, h]

theorem quotC_ne_lbraceC : (quotC = lbraceC) = False := by decide

theorem quotC_ne_lbrackC : (quotC = lbrackC) = False := by decide

theorem lbrackC_ne_lbraceC : (lbrackC = lbraceC) = False := by decide

theorem tC_ne_heads :
    ((('t' : Char) = lbraceC) = False) ∧ ((('t' : Char) = lbrackC) = False) ∧
      ((('t' : Char) = quotC) = False) := by decide

theorem fC_ne_heads :
    ((('f' : Char) = lbraceC) = False) ∧ ((('f' : Char) = lbrackC) = False) ∧
      ((('f' : Char) = quotC) = False) ∧ ((('f' : Char) = 't') = False) := by
  decide

theorem nC_ne_heads :
    ((('n' : Char) = lbraceC) = False) ∧ ((('n' : Char) = lbrackC) = False) ∧
      ((('n' : Char) = quotC) = False) ∧ ((('n' : Char) = 't') = False) ∧
      ((('n' : Char) = 'f') = False) := by decide

theorem dashC_ne_heads :
    ((('-' : Char) = lbraceC) = False) ∧ ((('-' : Char) = lbrackC) = False) ∧
      ((('-' : Char) = quotC) = False) ∧ ((('-' : Char) = 't') = False) ∧
      ((('-' : Char) = 'f') = False) ∧ ((('-' : Char) = 'n') = False) := by
  decide

theorem parseValue_at_lbrace (f : Nat) (r : List Char) :
    parseValue (f + 1) (lbraceC :: r) =
      (match skipWs r with
       | [] => none
       | c2 :: r2 =>
         if c2 = rbraceC then some (.obj .onil, r2)
         else
           match parseMembers f (c2 :: r2) with
           | some (fs, rest) => some (.obj fs, rest)
           | none => none) := by
  simp only [parseValue, skipWs_cons_of lbraceC r (by decide), eq_self_iff_true,
    if_true]

theorem parseValue_at_lbrack (f : Nat) (r : List Char) :
    parseValue (f + 1) (lbrackC :: r) =
      (match skipWs r with
       | [] => none
       | c2 :: r2 =>
         if c2 = rbrackC then some (.arr .lnil, r2)
         else
           match parseElems f (c2 :: r2) with
           | some (xs, rest) => some (.arr xs, rest)
           | none => none) := by
  simp only [parseValue, skipWs_cons_of lbrackC r (by decide), lbrackC_ne_lbraceC,
    if_false, eq_self_iff_true, if_true]

theorem parseValue_at_quot (f : Nat) (r : List Char) :
    parseValue (f + 1) (quotC :: r) =
      (match parseStrAux r with
       | some (s, rest) => some (.str s, rest)
       | none => none) := by
  simp only [parseValue, skipWs_cons_of quotC r (by decide), quotC_ne_lbraceC,
    quotC_ne_lbrackC, if_false, eq_self_iff_true, if_true]

theorem parseValue_at_t (f : Nat) (r : List Char) :
    parseValue (f + 1) ('t' :: r) =
      (expectChars ['r', 'u', 'e'] r).map (fun rest => (.bool true, rest)) := by
  simp only [parseValue, skipWs_cons_of 't' r (by decide), tC_ne_heads.1,
    tC_ne_heads.2.1, tC_ne_heads.2.2, if_false, eq_self_iff_true, if_true]

theorem parseValue_at_f (f : Nat) (r : List Char) :
    parseValue (f + 1) ('f' :: r) =
      (expectChars ['a', 'l', 's', 'e'] r).map
        (fun rest => (.bool false, rest)) := by
  simp only [parseValue, skipWs_cons_of 'f' r (by decide), fC_ne_heads.1,
    fC_ne_heads.2.1, fC_ne_heads.2.2.1, fC_ne_heads.2.2.2, if_false,
    eq_self_iff_true, if_true]

theorem parseValue_at_n (f : Nat) (r : List Char) :
    parseValue (f + 1) ('n' :: r) =
      (expectChars ['u', 'l', 'l'] r).map (fun rest => (.null, rest)) := by
  simp only [parseValue, skipWs_cons_of 'n' r (by decide), nC_ne_heads.1,
    nC_ne_heads.2.1, nC_ne_heads.2.2.1, nC_ne_heads.2.2.2.1,
    nC_ne_heads.2.2.2.2, if_false, eq_self_iff_true, if_true]

theorem parseValue_at_dash (f : Nat) (r : List Char) :
    parseValue (f + 1) ('-' :: r) =
      (match parseNat r with
       | some (m, rest) => some (.num (-(m : Int)), rest)
       | none => none) := by
  simp only [parseValue, skipWs_cons_of '-' r (by decide), dashC_ne_heads.1,
    dashC_ne_heads.2.1, dashC_ne_heads.2.2.1, dashC_ne_heads.2.2.2.1,
    dashC_ne_heads.2.2.2.2.1, dashC_ne_heads.2.2.2.2.2, if_false,
    eq_self_iff_true, if_true]

theorem digit_not_jsonWs {c : Char} (h : isDigitC c = true) :
    isJsonWs c = false := by
  have h1 : ¬(c = ' ') := fun he => absurd (he ▸ h) (by decide)
  have h2 : ¬(c = '\t') := fun he => absurd (he ▸ h) (by decide)
  have h3 : ¬(c = '\n') := fun he => absurd (he ▸ h) (by decide)
  have h4 : ¬(c = '\r') := fun he => absurd (he ▸ h) (by decide)
  simp [isJsonWs, h1, h2, h3, h4]

theorem parseValue_at_digit {c : Char} (f : Nat) (r : List Char)
    (h : isDigitC c = true) :
    parseValue (f + 1) (c :: r) =
      (match parseNat (c :: r) with
       | some (m, rest) => some (.num (m : Int), rest)
       | none => none) := by
  have h1 : ¬(c = lbraceC) := fun he => absurd (he ▸ h) (by decide)
  have h2 : ¬(c = lbrackC) := fun he => absurd (he ▸ h) (by decide)
  have h3 : ¬(c = quotC) := fun he => absurd (he ▸ h) (by decide)
  have h4 : ¬(c = 't') := fun he => absurd (he ▸ h) (by decide)
  have h5 : ¬(c = 'f') := fun he => absurd (he ▸ h) (by decide)
  have h6 : ¬(c = 'n') := fun he => absurd (he ▸ h) (by decide)
  have h7 : ¬(c = '-') := fun he => absurd (he ▸ h) (by decide)
  simp only [parseValue, skipWs_cons_of c r (digit_not_jsonWs h), if_neg h1,
    if_neg h2, if_neg h3, if_neg h4, if_neg h5, if_neg h6, if_neg h7, h,
    if_true]

theorem parseValue_at_other {c : Char} (f : Nat) (r : List Char)
    (hws : isJsonWs c = false) (h1 : ¬(c = lbraceC)) (h2 : ¬(c = lbrackC))
    (h3 : ¬(c = quotC)) (h4 : ¬(c = 't')) (h5 : ¬(c = 'f'))
    (h6 : ¬(c = 'n')) (h7 : ¬(c = '-')) (h8 : isDigitC c = false) :
    parseValue (f + 1) (c :: r) = none := by
  simp only [parseValue, skipWs_cons_of c r hws, if_neg h1, if_neg h2,
    if_neg h3, if_neg h4, if_neg h5, if_neg h6, if_neg h7, h8,
    Bool.false_eq_true, if_false]

theorem expectChars_self : ∀ (p l : List Char), expectChars p (p ++ l) = some l := by
  intro p
  induction p with
  | nil => intro l; simp [expectChars]
  | cons c r IH => intro l; simp [expectChars, IH]

theorem expectChars_sound :
    ∀ (p l rest : List Char), expectChars p l = some rest → l = p ++ rest := by
  intro p
  induction p with
  | nil => intro l rest h; simpa [expectChars] using h
  | cons c r IH =>
    intro l rest h
    cases l with
    | nil => simp [expectChars] at h
    | cons d t =>
      simp only [expectChars] at h
      by_cases hd : d = c
      · subst hd
        rw [if_pos rfl] at h
        simpa using IH t rest h
      · rw [if_neg hd] at h; exact absurd h (by simp)

theorem toNat_digitChar : ∀ n, n < 10 → (Char.ofNat (48 + n)).toNat = 48 + n := by
  intro n h; interval_cases n <;> decide

theorem isDigitC_digitChar : ∀ n, n < 10 → isDigitC (Char.ofNat (48 + n)) = true := by
  intro n h; interval_cases n <;> decide

theorem natCharsAux_spec :
    ∀ f n, n < f →
      natCharsAux f n ≠ [] ∧ ∀ c ∈ natCharsAux f n, isDigitC c = true := by
  intro f
  induction f with
  | zero => intro n h; omega
  | succ f IH =>
    intro n _
    by_cases h10 : n < 10
    · refine ⟨by simp [natCharsAux, h10], ?_⟩
      intro c hc
      simp [natCharsAux, h10] at hc
      subst hc
      exact isDigitC_digitChar n h10
    · have hlt : n / 10 < f := by omega
      obtain ⟨hne, hdig⟩ := IH (n / 10) hlt
      constructor
      · simp [natCharsAux, h10]
      · intro c hc
        simp only [natCharsAux, if_neg h10, List.mem_append,
          List.mem_singleton] at hc
        rcases hc with hc | hc
        · exact hdig c hc
        · subst hc
          exact isDigitC_digitChar (n % 10) (Nat.mod_lt n (by omega))

theorem parseNatAux_digits :
    ∀ (ds : List Char) (acc : Nat) (rest : List Char),
      (∀ c ∈ ds, isDigitC c = true) → noDigitHead rest = true →
        parseNatAux acc (ds ++ rest) = (List.foldl digitStep acc ds, rest) := by
  intro ds
  induction ds with
  | nil =>
    intro acc rest _ hr
    cases rest with
    | nil => simp [parseNatAux]
    | cons c r =>
      have : isDigitC c = false := by simpa [noDigitHead] using hr
      simp [parseNatAux, this]
  | cons c ds IH =>
    intro acc rest hd hr
    have hc : isDigitC c = true := hd c (by simp)
    simp only [List.cons_append, parseNatAux, hc, if_true, List.foldl_cons]
    exact IH (digitStep acc c) rest (fun x hx => hd x (by simp [hx])) hr

theorem foldl_digitStep_natCharsAux :
    ∀ f n acc, n < f →
      List.foldl digitStep acc (natCharsAux f n) =
        acc * 10 ^ (natCharsAux f n).length + n := by
  intro f
  induction f with
  | zero => intro n acc h; omega
  | succ f IH =>
    intro n acc _
    by_cases h10 : n < 10
    · simp only [natCharsAux, if_pos h10, List.foldl_cons, List.foldl_nil,
        List.length_singleton, pow_one, digitStep, toNat_digitChar n h10]
      omega
    · have hlt : n / 10 < f := by omega
      simp only [natCharsAux, if_neg h10, List.foldl_append, List.foldl_cons,
        List.foldl_nil, List.length_append, List.length_singleton]
      rw [IH (n / 10) acc hlt]
      simp only [digitStep, toNat_digitChar (n % 10) (Nat.mod_lt n (by omega))]
      rw [pow_succ, ← mul_assoc]
      have hdm := Nat.div_add_mod n 10
      set B := acc * 10 ^ (natCharsAux f (n / 10)).length
      omega

theorem parseNat_natChars (n : Nat) (rest : List Char)
    (hr : noDigitHead rest = true) :
    parseNat (natChars n ++ rest) = some (n, rest) := by
  obtain ⟨hne, hdig⟩ := natCharsAux_spec (n + 1) n (Nat.lt_succ_self n)
  have hfold : List.foldl digitStep 0 (natCharsAux (n + 1) n) = n := by
    rw [foldl_digitStep_natCharsAux (n + 1) n 0 (Nat.lt_succ_self n)]
    omega
  unfold natChars at *
  cases hc : natCharsAux (n + 1) n with
  | nil => exact absurd hc hne
  | cons c ds =>
    have hcd : isDigitC c = true := hdig c (by rw [hc]; simp)
    rw [hc] at hfold
    simp only [List.foldl_cons] at hfold
    simp only [hc, List.cons_append, parseNat, hcd, if_true]
    rw [parseNatAux_digits ds (digitStep 0 c) rest
      (fun x hx => hdig x (by rw [hc]; simp [hx])) hr, hfold]

theorem unescape_quot : unescapeChar quotC = some quotC := by decide

theorem unescape_bslash : unescapeChar bslashC = some bslashC := by decide

theorem bslashC_ne_quotC : ¬(bslashC = quotC) := by decide

theorem parseStrAux_escape :
    ∀ (s rest : List Char),
      parseStrAux (escapeStr s ++ quotC :: rest) = some (s, rest) := by
  intro s
  induction s with
  | nil =>
    intro rest
    rw [escapeStr.eq_1, List.nil_append, parseStrAux.eq_def]
    simp
  | cons c r IH =>
    intro rest
    rw [escapeStr.eq_2]
    by_cases hq : c = quotC
    · subst hq
      rw [if_pos rfl]
      simp only [List.cons_append, List.nil_append, List.append_assoc]
      rw [parseStrAux.eq_def]
      simp [bslashC_ne_quotC, unescape_quot, IH]
    · by_cases hb : c = bslashC
      · subst hb
        rw [if_neg bslashC_ne_quotC, if_pos rfl]
        simp only [List.cons_append, List.nil_append, List.append_assoc]
        rw [parseStrAux.eq_def]
        simp [bslashC_ne_quotC, unescape_bslash, IH]
      · rw [if_neg hq, if_neg hb]
        simp only [List.cons_append, List.nil_append, List.append_assoc]
        rw [parseStrAux.eq_def]
        simp [hq, hb, IH]

theorem serJson_head :
    ∀ v : Json, ∃ c r, serJson v = c :: r ∧ isJsonWs c = false ∧
      ¬(c = rbrackC) ∧ ¬(c = rbraceC) := by
  intro v
  cases v with
  | null => refine ⟨_, _, rfl, ?_, ?_, ?_⟩ <;> decide
  | bool b => cases b <;> (refine ⟨_, _, rfl, ?_, ?_, ?_⟩ <;> decide)
  | num n =>
    cases n with
    | ofNat m =>
      obtain ⟨hne, hdig⟩ := natCharsAux_spec (m + 1) m (Nat.lt_succ_self m)
      cases hc : natCharsAux (m + 1) m with
      | nil => exact absurd hc hne
      | cons c ds =>
        have hcd : isDigitC c = true := hdig c (by rw [hc]; simp)
        refine ⟨c, ds, ?_, digit_not_jsonWs hcd, ?_, ?_⟩
        · simpa [serJson, intChars, natChars] using hc
        · exact fun he => absurd (he ▸ hcd) (by decide)
        · exact fun he => absurd (he ▸ hcd) (by decide)
    | negSucc m => refine ⟨_, _, rfl, ?_, ?_, ?_⟩ <;> decide
  | str s => refine ⟨_, _, rfl, ?_, ?_, ?_⟩ <;> decide
  | arr xs => refine ⟨_, _, rfl, ?_, ?_, ?_⟩ <;> decide
  | obj fs => refine ⟨_, _, rfl, ?_, ?_, ?_⟩ <;> decide

theorem serElems_cons_head :
    ∀ (x : Json) (tl : JsonList), ∃ c r,
      serElems (.lcons x tl) = c :: r ∧ isJsonWs c = false ∧
        ¬(c = rbrackC) := by
  intro x tl
  obtain ⟨c, r, hx, hws, hb, _⟩ := serJson_head x
  cases tl with
  | lnil => exact ⟨c, r, by simpa [serElems] using hx, hws, hb⟩
  | lcons y t2 =>
    exact ⟨c, r ++ ',' :: serElems (.lcons y t2),
      by simp [serElems, hx], hws, hb⟩

theorem serJson_ne_nil : ∀ v : Json, serJson v ≠ [] := by
  intro v
  obtain ⟨c, r, h, _, _, _⟩ := serJson_head v
  simp [h]

theorem serMembers_cons_head :
    ∀ (k : List Char) (v : Json) (tl : JsonObj), ∃ rr,
      serMembers (.ocons k v tl) = quotC :: rr := by
  intro k v tl
  cases tl with
  | onil => exact ⟨_, rfl⟩
  | ocons k2 v2 t2 => exact ⟨_, rfl⟩

theorem noDigitHead_cons (c : Char) (l : List Char) :
    noDigitHead (c :: l) = !isDigitC c := rfl

theorem parseRT :
    ∀ f : Nat,
      (∀ (v : Json) (rest : List Char), (serJson v).length < f →
        noDigitHead rest = true →
          parseValue f (serJson v ++ rest) = some (v, rest)) ∧
      (∀ (x : Json) (tl : JsonList) (rest : List Char),
        (serElems (.lcons x tl)).length + 2 ≤ f →
          parseElems f (serElems (.lcons x tl) ++ rbrackC :: rest) =
            some (.lcons x tl, rest)) ∧
      (∀ (k : List Char) (v : Json) (tl : JsonObj) (rest : List Char),
        (serMembers (.ocons k v tl)).length + 2 ≤ f →
          parseMembers f (serMembers (.ocons k v tl) ++ rbraceC :: rest) =
            some (.ocons k v tl, rest)) := by
  intro f
  induction f using Nat.strong_induction_on with
  | _ f IH =>
  rcases f with _ | f'
  · refine ⟨?_, ?_, ?_⟩
    · intro v rest h _; omega
    · intro x tl rest h; omega
    · intro k v tl rest h; omega
  have IHv := (IH f' (Nat.lt_succ_self f')).1
  have IHe := (IH f' (Nat.lt_succ_self f')).2.1
  have IHm := (IH f' (Nat.lt_succ_self f')).2.2
  refine ⟨?_, ?_, ?_⟩
  · -- values
    intro v rest hlen hnd
    cases v with
    | null =>
      rw [show serJson Json.null ++ rest = 'n' :: (['u', 'l', 'l'] ++ rest)
        from rfl]
      rw [parseValue_at_n, expectChars_self]
      rfl
    | bool b =>
      cases b with
      | true =>
        rw [show serJson (Json.bool true) ++ rest =
          't' :: (['r', 'u', 'e'] ++ rest) from rfl]
        rw [parseValue_at_t, expectChars_self]
        rfl
      | false =>
        rw [show serJson (Json.bool false) ++ rest =
          'f' :: (['a', 'l', 's', 'e'] ++ rest) from rfl]
        rw [parseValue_at_f, expectChars_self]
        rfl
    | num n =>
      cases n with
      | ofNat m =>
        obtain ⟨hne, hdig⟩ := natCharsAux_spec (m + 1) m (Nat.lt_succ_self m)
        have hser : serJson (.num (.ofNat m)) = natChars m := rfl
        cases hc : natChars m with
        | nil => exact absurd hc hne
        | cons c ds =>
          have hcd : isDigitC c = true := hdig c (by
            have := hc
            unfold natChars at this
            rw [this]; simp)
          rw [hser, hc, List.cons_append, parseValue_at_digit f' _ hcd,
            ← List.cons_append, ← hc, parseNat_natChars m rest hnd]
          rfl
      | negSucc m =>
        have hser : serJson (.num (.negSucc m)) = '-' :: natChars (m + 1) :=
          rfl
        rw [hser, List.cons_append, parseValue_at_dash,
          parseNat_natChars (m + 1) rest hnd]
        have : (-((m : Int) + 1)) = Int.negSucc m := (Int.negSucc_eq m).symm
        push_cast
        rw [this]
    | str s =>
      rw [show serJson (Json.str s) ++ rest =
        quotC :: (escapeStr s ++ quotC :: rest) from by
          simp [serJson, List.append_assoc]]
      rw [parseValue_at_quot, parseStrAux_escape]
    | arr xs =>
      cases xs with
      | lnil =>
        rw [show serJson (Json.arr .lnil) ++ rest =
          lbrackC :: (rbrackC :: rest) from rfl]
        rw [parseValue_at_lbrack, skipWs_cons_of rbrackC rest (by decide)]
        simp
      | lcons x tl =>
        have hl2 : (serElems (.lcons x tl)).length + 2 ≤ f' := by
          have : serJson (.arr (.lcons x tl)) =
            lbrackC :: (serElems (.lcons x tl) ++ [rbrackC]) := rfl
          rw [this] at hlen
          simp only [List.length_cons, List.length_append,
            List.length_singleton] at hlen
          omega
        obtain ⟨c, rr, hce, hws, hnb⟩ := serElems_cons_head x tl
        rw [show serJson (Json.arr (.lcons x tl)) ++ rest =
          lbrackC :: (serElems (.lcons x tl) ++ rbrackC :: rest) from by
            simp [serJson, List.append_assoc]]
        rw [parseValue_at_lbrack, hce, List.cons_append,
          skipWs_cons_of c _ hws]
        simp only [if_neg hnb]
        rw [← List.cons_append, ← hce, IHe x tl rest hl2]
    | obj fs =>
      cases fs with
      | onil =>
        rw [show serJson (Json.obj .onil) ++ rest =
          lbraceC :: (rbraceC :: rest) from rfl]
        rw [parseValue_at_lbrace, skipWs_cons_of rbraceC rest (by decide)]
        simp
      | ocons k v tl =>
        have hl2 : (serMembers (.ocons k v tl)).length + 2 ≤ f' := by
          have : serJson (.obj (.ocons k v tl)) =
            lbraceC :: (serMembers (.ocons k v tl) ++ [rbraceC]) := rfl
          rw [this] at hlen
          simp only [List.length_cons, List.length_append,
            List.length_singleton] at hlen
          omega
        obtain ⟨rr, hce⟩ := serMembers_cons_head k v tl
        rw [show serJson (Json.obj (.ocons k v tl)) ++ rest =
          lbraceC :: (serMembers (.ocons k v tl) ++ rbraceC :: rest) from by
            simp [serJson, List.append_assoc]]
        rw [parseValue_at_lbrace, hce, List.cons_append,
          skipWs_cons_of quotC _ (by decide)]
        simp only [if_neg (by decide : ¬(quotC = rbraceC))]
        rw [← List.cons_append, ← hce, IHm k v tl rest hl2]
  · -- array elements
    intro x tl rest hf
    cases tl with
    | lnil =>
      have hv : parseValue f' (serJson x ++ rbrackC :: rest) =
          some (x, rbrackC :: rest) := by
        apply IHv x (rbrackC :: rest)
        · have : serElems (.lcons x .lnil) = serJson x := rfl
          rw [this] at hf
          omega
        · rw [noDigitHead_cons]; decide
      rw [show serElems (.lcons x .lnil) ++ rbrackC :: rest =
        serJson x ++ rbrackC :: rest from rfl]
      simp only [parseElems, hv, skipWs_cons_of rbrackC rest (by decide)]
      rw [if_neg (by decide : ¬(rbrackC = ','))]
      simp
    | lcons y t2 =>
      have hx1 : 1 ≤ (serJson x).length := by
        have := serJson_ne_nil x
        cases hsx : serJson x with
        | nil => exact absurd hsx this
        | cons a b => simp
      have hy1 : 1 ≤ (serElems (.lcons y t2)).length := by
        obtain ⟨c, rr, hce, _, _⟩ := serElems_cons_head y t2
        rw [hce]; simp
      have hlen : (serElems (.lcons x (.lcons y t2))).length =
          (serJson x).length + 1 + (serElems (.lcons y t2)).length := by
        rw [show serElems (.lcons x (.lcons y t2)) =
          serJson x ++ ',' :: serElems (.lcons y t2) from rfl]
        simp [List.length_append]
        omega
      have hv : parseValue f' (serJson x ++
          (',' :: (serElems (.lcons y t2) ++ rbrackC :: rest))) =
          some (x, ',' :: (serElems (.lcons y t2) ++ rbrackC :: rest)) := by
        apply IHv
        · omega
        · rw [noDigitHead_cons]; decide
      rw [show serElems (.lcons x (.lcons y t2)) ++ rbrackC :: rest =
        serJson x ++ (',' :: (serElems (.lcons y t2) ++ rbrackC :: rest))
        from by
          rw [show serElems (.lcons x (.lcons y t2)) =
            serJson x ++ ',' :: serElems (.lcons y t2) from rfl]
          simp [List.append_assoc]]
      simp only [parseElems, hv,
        skipWs_cons_of ',' (serElems (.lcons y t2) ++ rbrackC :: rest)
          (by decide), eq_self_iff_true, if_true]
      rw [IHe y t2 rest (by omega)]
  · -- object members
    intro k v tl rest hf
    cases tl with
    | onil =>
      have hser : serMembers (.ocons k v .onil) =
          quotC :: (escapeStr k ++ quotC :: ':' :: serJson v) := by
        simp [serMembers]
      have hlen : (serMembers (.ocons k v .onil)).length =
          (escapeStr k).length + 3 + (serJson v).length := by
        rw [hser]; simp [List.length_append]; omega
      have hv : parseValue f' (serJson v ++ rbraceC :: rest) =
          some (v, rbraceC :: rest) := by
        apply IHv
        · omega
        · rw [noDigitHead_cons]; decide
      rw [show serMembers (.ocons k v .onil) ++ rbraceC :: rest =
        quotC :: (escapeStr k ++ quotC ::
          (':' :: (serJson v ++ rbraceC :: rest))) from by
          rw [hser]; simp [List.append_assoc]]
      simp only [parseMembers,
        skipWs_cons_of quotC
          (escapeStr k ++ quotC :: (':' :: (serJson v ++ rbraceC :: rest)))
          (by decide),
        eq_self_iff_true, if_true, parseStrAux_escape,
        skipWs_cons_of ':' (serJson v ++ rbraceC :: rest) (by decide), hv,
        skipWs_cons_of rbraceC rest (by decide)]
      rw [if_neg (by decide : ¬(rbraceC = ','))]
    | ocons k2 v2 t2 =>
      have hser : serMembers (.ocons k v (.ocons k2 v2 t2)) =
          quotC :: (escapeStr k ++ quotC :: ':' :: serJson v ++
            ',' :: serMembers (.ocons k2 v2 t2)) := by
        simp [serMembers]
      have hm1 : 1 ≤ (serMembers (.ocons k2 v2 t2)).length := by
        obtain ⟨rr, hce⟩ := serMembers_cons_head k2 v2 t2
        rw [hce]; simp
      have hlen : (serMembers (.ocons k v (.ocons k2 v2 t2))).length =
          (escapeStr k).length + 4 + (serJson v).length +
            (serMembers (.ocons k2 v2 t2)).length := by
        rw [hser]; simp [List.length_append]; omega
      have hv : parseValue f' (serJson v ++
          (',' :: (serMembers (.ocons k2 v2 t2) ++ rbraceC :: rest))) =
          some (v, ',' :: (serMembers (.ocons k2 v2 t2) ++
            rbraceC :: rest)) := by
        apply IHv
        · omega
        · rw [noDigitHead_cons]; decide
      rw [show serMembers (.ocons k v (.ocons k2 v2 t2)) ++ rbraceC :: rest =
        quotC :: (escapeStr k ++ quotC :: (':' :: (serJson v ++
          (',' :: (serMembers (.ocons k2 v2 t2) ++ rbraceC :: rest)))))
        from by
          rw [hser]; simp [List.append_assoc]]
      simp only [parseMembers,
        skipWs_cons_of quotC
          (escapeStr k ++ quotC :: (':' :: (serJson v ++
            (',' :: (serMembers (.ocons k2 v2 t2) ++ rbraceC :: rest)))))
          (by decide),
        eq_self_iff_true, if_true, parseStrAux_escape,
        skipWs_cons_of ':' (serJson v ++
          (',' :: (serMembers (.ocons k2 v2 t2) ++ rbraceC :: rest)))
          (by decide), hv,
        skipWs_cons_of ','
          (serMembers (.ocons k2 v2 t2) ++ rbraceC :: rest) (by decide)]
      rw [IHm k2 v2 t2 rest (by omega)]

theorem parseValue_ser (v : Json) (rest : List Char) (f : Nat)
    (hf : (serJson v).length < f) (hr : noDigitHead rest = true) :
    parseValue f (serJson v ++ rest) = some (v, rest) :=
  (parseRT f).1 v rest hf hr

/-! ## Lemmas about fence stripping, trimming and brace search -/

theorem stripBTAux_id :
    ∀ f l, containsSixBT l = false → stripBTAux f l = l := by
  intro f
  induction f with
  | zero => intro l _; rfl
  | succ f IH =>
    intro l h
    cases l with
    | nil => rfl
    | cons c r =>
      have h2 : startsWithSixBT (c :: r) = false ∧ containsSixBT r = false := by
        have := h
        rw [containsSixBT] at this
        exact Bool.or_eq_false_iff.mp this
      rw [stripBTAux, if_neg (by simp [h2.1]), IH r h2.2]

theorem stripBT_id (l : List Char) (h : containsSixBT l = false) :
    stripBT l = l := stripBTAux_id l.length l h

theorem startsWithSixBT_false_of_head {c : Char} (r : List Char)
    (h : ¬(c = btickC)) : startsWithSixBT (c :: r) = false := by
  apply decide_eq_false
  intro he
  have : c ∈ List.take 6 (c :: r) := by
    rw [List.take_succ_cons]; simp
  rw [he] at this
  simp at this
  exact h this

theorem containsSixBT_of_btFree :
    ∀ l : List Char, (∀ c ∈ l, ¬(c = btickC)) → containsSixBT l = false := by
  intro l
  induction l with
  | nil => intro _; rfl
  | cons c r IH =>
    intro h
    rw [containsSixBT, Bool.or_eq_false_iff]
    exact ⟨startsWithSixBT_false_of_head r (h c (by simp)),
      IH fun x hx => h x (by simp [hx])⟩

theorem containsSixBT_append_left :
    ∀ a z : List Char, (∀ c ∈ a, ¬(c = btickC)) →
      containsSixBT (a ++ z) = containsSixBT z := by
  intro a
  induction a with
  | nil => intro z _; rfl
  | cons c r IH =>
    intro z h
    rw [List.cons_append, containsSixBT,
      startsWithSixBT_false_of_head _ (h c (by simp)), Bool.false_or,
      IH z (fun x hx => h x (by simp [hx]))]

theorem startsWithSixBT_append_false {x : List Char} (post : List Char)
    (hx : startsWithSixBT x = false)
    (hhd : ∀ hd ∈ post.take 1, ¬(hd = btickC)) :
    startsWithSixBT (x ++ post) = false := by
  by_cases hlen : 6 ≤ x.length
  · unfold startsWithSixBT at *
    rw [List.take_append_of_le_length hlen]
    exact hx
  · apply decide_eq_false
    intro he
    rw [List.take_append_eq_append_take,
      List.take_of_length_le (by omega)] at he
    cases hp : post with
    | nil =>
      rw [hp] at he
      simp at he
      have := congrArg List.length he
      simp at this
      omega
    | cons p0 pr =>
      have hp0 : ¬(p0 = btickC) := hhd p0 (by rw [hp]; simp [List.take])
      have h1 : 1 ≤ 6 - x.length := by omega
      have : p0 ∈ x ++ List.take (6 - x.length) post := by
        apply List.mem_append_right
        rw [hp]
        cases h6 : 6 - x.length with
        | zero => omega
        | succ k => rw [List.take_succ_cons]; simp
      rw [he] at this
      simp at this
      exact hp0 this

theorem containsSixBT_append_of_head :
    ∀ a post : List Char, containsSixBT a = false →
      containsSixBT post = false →
      (∀ hd ∈ post.take 1, ¬(hd = btickC)) →
      containsSixBT (a ++ post) = false := by
  intro a
  induction a with
  | nil => intro post _ hp _; exact hp
  | cons c r IH =>
    intro post h hp hhd
    have h2 : startsWithSixBT (c :: r) = false ∧ containsSixBT r = false := by
      rw [containsSixBT] at h
      exact Bool.or_eq_false_iff.mp h
    rw [List.cons_append, containsSixBT, Bool.or_eq_false_iff]
    constructor
    · rw [← List.cons_append]
      exact startsWithSixBT_append_false post h2.1 hhd
    · exact IH post h2.2 hp hhd

theorem dropWhile_append_eq (p : Char → Bool) :
    ∀ a b : List Char,
      List.dropWhile p (a ++ b) =
        if List.dropWhile p a = [] then List.dropWhile p b
        else List.dropWhile p a ++ b := by
  intro a
  induction a with
  | nil => intro b; simp
  | cons c r IH =>
    intro b
    by_cases hc : p c = true
    · simp only [List.cons_append, List.dropWhile_cons, hc, if_true, IH]
    · simp only [List.cons_append, List.dropWhile_cons, hc,
        Bool.false_eq_true, if_false]
      rw [if_neg (by simp)]

theorem ltrimJs_cons_of (c : Char) (r : List Char) (h : isJsWs c = false) :
    ltrimJs (c :: r) = c :: r := by
  simp [ltrimJs, List.dropWhile_cons, h]

theorem rtrimJs_snoc_of (a : List Char) (c : Char) (h : isJsWs c = false) :
    rtrimJs (a ++ [c]) = a ++ [c] := by
  unfold rtrimJs
  rw [List.reverse_append]
  simp [List.dropWhile_cons, h]

theorem rtrimJs_append (x y : List Char) :
    rtrimJs (x ++ y) =
      if rtrimJs y = [] then rtrimJs x else x ++ rtrimJs y := by
  unfold rtrimJs
  rw [List.reverse_append, dropWhile_append_eq]
  by_cases h : List.dropWhile isJsWs y.reverse = []
  · simp [h]
  · rw [if_neg h, if_neg (by simp [h]), List.reverse_append]
    simp

theorem ltrimJs_append (a b : List Char) :
    ltrimJs (a ++ b) =
      if ltrimJs a = [] then ltrimJs b else ltrimJs a ++ b :=
  dropWhile_append_eq isJsWs a b

theorem jsTrim_around (A m B : List Char) :
    jsTrim (A ++ (lbraceC :: (m ++ [rbraceC])) ++ B) =
      ltrimJs A ++ (lbraceC :: (m ++ [rbraceC])) ++ rtrimJs B := by
  have hS : rtrimJs (lbraceC :: (m ++ [rbraceC])) =
      lbraceC :: (m ++ [rbraceC]) := by
    rw [show lbraceC :: (m ++ [rbraceC]) = (lbraceC :: m) ++ [rbraceC] from
      by simp]
    exact rtrimJs_snoc_of (lbraceC :: m) rbraceC (by decide)
  have hSne : lbraceC :: (m ++ [rbraceC]) ≠ [] := by simp
  unfold jsTrim
  rw [List.append_assoc, rtrimJs_append A ((lbraceC :: (m ++ [rbraceC])) ++ B),
    rtrimJs_append (lbraceC :: (m ++ [rbraceC])) B, hS]
  have hcase : (if rtrimJs B = [] then lbraceC :: (m ++ [rbraceC])
      else lbraceC :: (m ++ [rbraceC]) ++ rtrimJs B) =
      lbraceC :: (m ++ [rbraceC]) ++ rtrimJs B := by
    by_cases hb : rtrimJs B = []
    · rw [if_pos hb, hb, List.append_nil]
    · rw [if_neg hb]
  rw [hcase, if_neg (by simp)]
  rw [show A ++ (lbraceC :: (m ++ [rbraceC]) ++ rtrimJs B) =
    A ++ (lbraceC :: ((m ++ [rbraceC]) ++ rtrimJs B)) from by simp,
    ltrimJs_append A (lbraceC :: ((m ++ [rbraceC]) ++ rtrimJs B)),
    ltrimJs_cons_of lbraceC _ (by decide)]
  by_cases ha : ltrimJs A = []
  · rw [if_pos ha, ha]; simp
  · rw [if_neg ha]; simp

theorem indexOfChar_append_head :
    ∀ (A : List Char) (c : Char) (w : List Char),
      (∀ x ∈ A, ¬(x = c)) → indexOfChar (A ++ c :: w) c = some A.length := by
  intro A c w
  induction A with
  | nil => intro _; simp [indexOfChar]
  | cons a r IH =>
    intro h
    rw [List.cons_append, indexOfChar, if_neg (h a (by simp)),
      IH (fun x hx => h x (by simp [hx]))]
    simp

theorem lastIndexOfChar_spec (A X B : List Char) (c : Char)
    (hB : ∀ x ∈ B, ¬(x = c)) :
    lastIndexOfChar (A ++ (X ++ [c]) ++ B) c =
      some (A.length + X.length) := by
  unfold lastIndexOfChar
  have hrev : (A ++ (X ++ [c]) ++ B).reverse =
      B.reverse ++ c :: (X.reverse ++ A.reverse) := by
    simp
  rw [hrev, indexOfChar_append_head B.reverse c (X.reverse ++ A.reverse)
    (fun x hx => hB x (List.mem_reverse.mp hx))]
  simp [List.length_append]
  omega

theorem jsonParse_ser (v : Json) : jsonParse (serJson v) = some v := by
  unfold jsonParse
  have h : parseValue ((serJson v).length + 1) (serJson v ++ []) =
      some (v, []) :=
    parseValue_ser v [] ((serJson v).length + 1) (by omega) rfl
  rw [List.append_nil] at h
  rw [h]
  simp [skipWs]

/-! ## Lemmas about prose-wrapped payloads -/

theorem isJsonWs_of_isJsWs_false {c : Char} (h : isJsWs c = false) :
    isJsonWs c = false := by
  unfold isJsWs at h
  cases hj : isJsonWs c
  · rfl
  · rw [hj] at h; simp at h

theorem skipWs_ne_nil_of_mem {l : List Char} {d : Char} (hd : d ∈ l)
    (hws : isJsonWs d = false) : skipWs l ≠ [] := by
  unfold skipWs
  intro h
  rw [List.dropWhile_eq_nil_iff] at h
  exact absurd (h d hd) (by simp [hws])

theorem dropWhile_head_false (p : Char → Bool) :
    ∀ (l : List Char) (c : Char) (r : List Char),
      List.dropWhile p l = c :: r → p c = false := by
  intro l
  induction l with
  | nil => intro c r h; simp [List.dropWhile] at h
  | cons a t IH =>
    intro c r h
    rw [List.dropWhile_cons] at h
    by_cases hp : p a = true
    · rw [if_pos hp] at h; exact IH c r h
    · rw [if_neg hp] at h
      injection h with h1 _
      subst h1
      simpa using hp

theorem proseChar_facts {a : Char} (h : proseChar a = true) :
    ¬(a = lbraceC) ∧ ¬(a = rbraceC) ∧ ¬(a = lbrackC) ∧ ¬(a = quotC) ∧
      ¬(a = '-') ∧ ¬(a = btickC) ∧ isDigitC a = false := by
  unfold proseChar at h
  simp only [Bool.or_eq_true, decide_eq_true_eq] at h
  rcases h with (((((((((ha | h) | h) | h) | h) | h) | h) | h) | h) | h)
  · refine ⟨fun he => absurd (he ▸ ha) (by decide),
      fun he => absurd (he ▸ ha) (by decide),
      fun he => absurd (he ▸ ha) (by decide),
      fun he => absurd (he ▸ ha) (by decide),
      fun he => absurd (he ▸ ha) (by decide),
      fun he => absurd (he ▸ ha) (by decide), ?_⟩
    by_cases hd : isDigitC a = true
    · exfalso
      unfold isAlphaC at ha
      unfold isDigitC at hd
      rw [decide_eq_true_eq] at ha hd
      omega
    · simpa using hd
  all_goals (subst h; decide)

theorem prose_noDigitHead {l : List Char}
    (h : ∀ c ∈ l, proseChar c = true) : noDigitHead l = true := by
  cases l with
  | nil => rfl
  | cons c r =>
    rw [noDigitHead_cons, (proseChar_facts (h c (by simp))).2.2.2.2.2.2]
    rfl

theorem jsonParse_head_other {c : Char} (r : List Char)
    (hws : isJsonWs c = false) (h1 : ¬(c = lbraceC)) (h2 : ¬(c = lbrackC))
    (h3 : ¬(c = quotC)) (h4 : ¬(c = 't')) (h5 : ¬(c = 'f'))
    (h6 : ¬(c = 'n')) (h7 : ¬(c = '-')) (h8 : isDigitC c = false) :
    jsonParse (c :: r) = none := by
  unfold jsonParse
  rw [show (c :: r).length + 1 = (r.length + 1) + 1 from by simp]
  rw [parseValue_at_other (r.length + 1) r hws h1 h2 h3 h4 h5 h6 h7 h8]

theorem jsonParse_cons_fail {a : Char} (rest2 : List Char)
    (hws : isJsonWs a = false) (hp : proseChar a = true)
    (hbr : lbraceC ∈ rest2) :
    jsonParse (a :: rest2) = none := by
  obtain ⟨h1, _, h2, h3, h7, _, h8⟩ := proseChar_facts hp
  by_cases ht : a = 't'
  · subst ht
    unfold jsonParse
    rw [show (('t' : Char) :: rest2).length + 1 = (rest2.length + 1) + 1
      from by simp]
    rw [parseValue_at_t]
    cases he : expectChars ['r', 'u', 'e'] rest2 with
    | none => rfl
    | some rest3 =>
      have hsound := expectChars_sound _ _ _ he
      have hmem : lbraceC ∈ rest3 := by
        rw [hsound] at hbr
        rcases List.mem_append.mp hbr with hm | hm
        · exact absurd hm (by decide)
        · exact hm
      simp only [Option.map_some']
      rw [if_neg (skipWs_ne_nil_of_mem hmem (by decide))]
  · by_cases hf : a = 'f'
    · subst hf
      unfold jsonParse
      rw [show (('f' : Char) :: rest2).length + 1 = (rest2.length + 1) + 1
        from by simp]
      rw [parseValue_at_f]
      cases he : expectChars ['a', 'l', 's', 'e'] rest2 with
      | none => rfl
      | some rest3 =>
        have hsound := expectChars_sound _ _ _ he
        have hmem : lbraceC ∈ rest3 := by
          rw [hsound] at hbr
          rcases List.mem_append.mp hbr with hm | hm
          · exact absurd hm (by decide)
          · exact hm
        simp only [Option.map_some']
        rw [if_neg (skipWs_ne_nil_of_mem hmem (by decide))]
    · by_cases hn : a = 'n'
      · subst hn
        unfold jsonParse
        rw [show (('n' : Char) :: rest2).length + 1 = (rest2.length + 1) + 1
          from by simp]
        rw [parseValue_at_n]
        cases he : expectChars ['u', 'l', 'l'] rest2 with
        | none => rfl
        | some rest3 =>
          have hsound := expectChars_sound _ _ _ he
          have hmem : lbraceC ∈ rest3 := by
            rw [hsound] at hbr
            rcases List.mem_append.mp hbr with hm | hm
            · exact absurd hm (by decide)
            · exact hm
          simp only [Option.map_some']
          rw [if_neg (skipWs_ne_nil_of_mem hmem (by decide))]
      · exact jsonParse_head_other rest2 hws h1 h2 h3 ht hf hn h7 h8

theorem rtrimJs_has_nonws (B : List Char) (h : rtrimJs B ≠ []) :
    ∃ d, d ∈ rtrimJs B ∧ isJsWs d = false := by
  cases hc : List.dropWhile isJsWs B.reverse with
  | nil => exact absurd (by unfold rtrimJs; rw [hc]; rfl) h
  | cons e t =>
    refine ⟨e, ?_, dropWhile_head_false isJsWs B.reverse e t hc⟩
    unfold rtrimJs
    rw [hc]
    simp

theorem mem_of_mem_ltrimJs {c : Char} {l : List Char} (h : c ∈ ltrimJs l) :
    c ∈ l := (List.dropWhile_sublist isJsWs).subset h

theorem mem_of_mem_rtrimJs {c : Char} {l : List Char} (h : c ∈ rtrimJs l) :
    c ∈ l := by
  unfold rtrimJs at h
  rw [List.mem_reverse] at h
  exact List.mem_reverse.mp ((List.dropWhile_sublist isJsWs).subset h)

/-! ## The behaviour of extractJson on wrapped payloads -/

theorem extractJson_wrap_core (fs : JsonObj) (T A B : List Char)
    (hA : ∀ x ∈ A, ¬(x = lbraceC)) (hB : ∀ x ∈ B, ¬(x = rbraceC))
    (hclean : cleanOf T = A ++ serJson (.obj fs) ++ B)
    (hparse : jsonParse (A ++ serJson (.obj fs) ++ B) = none ∨
      (A = [] ∧ B = [])) :
    extractJson T = some (.obj fs) := by
  have hser : serJson (.obj fs) = lbraceC :: (serMembers fs ++ [rbraceC]) :=
    rfl
  simp only [extractJson, hclean]
  rcases hparse with hp | ⟨hA0, hB0⟩
  · rw [hp]
    have hidx : indexOfChar (A ++ serJson (.obj fs) ++ B) lbraceC =
        some A.length := by
      rw [show A ++ serJson (.obj fs) ++ B =
        A ++ lbraceC :: ((serMembers fs ++ [rbraceC]) ++ B) from by
          rw [hser]; simp]
      exact indexOfChar_append_head A lbraceC _ hA
    have hlast : lastIndexOfChar (A ++ serJson (.obj fs) ++ B) rbraceC =
        some (A.length + ((serMembers fs).length + 1)) := by
      rw [show A ++ serJson (.obj fs) ++ B =
        A ++ ((lbraceC :: serMembers fs) ++ [rbraceC]) ++ B from by
          rw [hser]; simp]
      rw [lastIndexOfChar_spec A (lbraceC :: serMembers fs) B rbraceC hB]
      simp
    rw [hidx, hlast]
    show jsonParse (jsSlice (A ++ serJson (.obj fs) ++ B) A.length
      (A.length + ((serMembers fs).length + 1) + 1)) = some (.obj fs)
    have hslice : jsSlice (A ++ serJson (.obj fs) ++ B) A.length
        (A.length + ((serMembers fs).length + 1) + 1) = serJson (.obj fs) := by
      unfold jsSlice
      rw [show A ++ serJson (.obj fs) ++ B =
        A ++ (serJson (.obj fs) ++ B) from by simp, List.drop_left]
      rw [show A.length + ((serMembers fs).length + 1) + 1 - A.length =
        (serJson (.obj fs)).length from by
          rw [hser]; simp [List.length_append]; omega]
      exact List.take_left _ _
    rw [hslice, jsonParse_ser]
  · subst hA0; subst hB0
    rw [List.nil_append, List.append_nil, jsonParse_ser]

theorem startsWithSixBT_false_mem {l : List Char} (d : Char)
    (hd : d ∈ l.take 6) (hnd : ¬(d = btickC)) :
    startsWithSixBT l = false := by
  apply decide_eq_false
  intro he
  rw [he] at hd
  simp at hd
  exact hnd hd

theorem containsSixBT_fencePre (z : List Char) :
    containsSixBT
      ([btickC, btickC, btickC, 'j', 's', 'o', 'n', '\n'] ++ z) =
      containsSixBT z := by
  have w0 : startsWithSixBT (btickC :: btickC :: btickC :: 'j' :: 's' ::
      'o' :: 'n' :: '\n' :: z) = false :=
    startsWithSixBT_false_mem 'j' (by simp [List.take_succ_cons]) (by decide)
  have w1 : startsWithSixBT (btickC :: btickC :: 'j' :: 's' :: 'o' :: 'n' ::
      '\n' :: z) = false :=
    startsWithSixBT_false_mem 'j' (by simp [List.take_succ_cons]) (by decide)
  have w2 : startsWithSixBT (btickC :: 'j' :: 's' :: 'o' :: 'n' :: '\n' ::
      z) = false :=
    startsWithSixBT_false_mem 'j' (by simp [List.take_succ_cons]) (by decide)
  have w3 : startsWithSixBT ('j' :: 's' :: 'o' :: 'n' :: '\n' :: z) = false :=
    startsWithSixBT_false_of_head _ (by decide)
  have w4 : startsWithSixBT ('s' :: 'o' :: 'n' :: '\n' :: z) = false :=
    startsWithSixBT_false_of_head _ (by decide)
  have w5 : startsWithSixBT ('o' :: 'n' :: '\n' :: z) = false :=
    startsWithSixBT_false_of_head _ (by decide)
  have w6 : startsWithSixBT ('n' :: '\n' :: z) = false :=
    startsWithSixBT_false_of_head _ (by decide)
  have w7 : startsWithSixBT ('\n' :: z) = false :=
    startsWithSixBT_false_of_head _ (by decide)
  show containsSixBT (btickC :: btickC :: btickC :: 'j' :: 's' :: 'o' ::
    'n' :: '\n' :: z) = containsSixBT z
  simp [containsSixBT, w0, w1, w2, w3, w4, w5, w6, w7]

theorem extractJson_fenced_rt (fs : JsonObj)
    (hbt : containsSixBT (serJson (.obj fs)) = false) :
    extractJson (fenced (serJson (.obj fs))) = some (.obj fs) := by
  have hser : serJson (.obj fs) = lbraceC :: (serMembers fs ++ [rbraceC]) :=
    rfl
  have hfen : fenced (serJson (.obj fs)) =
      [btickC, btickC, btickC, 'j', 's', 'o', 'n', '\n'] ++
        serJson (.obj fs) ++ ('\n' :: [btickC, btickC, btickC]) := rfl
  have hcontains : containsSixBT (fenced (serJson (.obj fs))) = false := by
    rw [hfen, List.append_assoc, containsSixBT_fencePre]
    exact containsSixBT_append_of_head _ _ hbt (by decide) (by decide)
  have hclean : cleanOf (fenced (serJson (.obj fs))) =
      [btickC, btickC, btickC, 'j', 's', 'o', 'n', '\n'] ++
        serJson (.obj fs) ++ ('\n' :: [btickC, btickC, btickC]) := by
    unfold cleanOf
    rw [stripBT_id _ hcontains, hfen, hser, jsTrim_around,
      ltrimJs_cons_of _ _ (by decide),
      show ('\n' :: [btickC, btickC, btickC] : List Char) =
        ['\n', btickC, btickC] ++ [btickC] from rfl,
      rtrimJs_snoc_of _ _ (by decide)]
  have hfail : jsonParse
      ([btickC, btickC, btickC, 'j', 's', 'o', 'n', '\n'] ++
        serJson (.obj fs) ++ ('\n' :: [btickC, btickC, btickC])) = none := by
    rw [show [btickC, btickC, btickC, 'j', 's', 'o', 'n', '\n'] ++
      serJson (.obj fs) ++ ('\n' :: [btickC, btickC, btickC]) =
      btickC :: ([btickC, btickC, 'j', 's', 'o', 'n', '\n'] ++
        serJson (.obj fs) ++ ('\n' :: [btickC, btickC, btickC])) from by
        simp]
    exact jsonParse_head_other _ (by decide) (by decide) (by decide)
      (by decide) (by decide) (by decide) (by decide) (by decide) (by decide)
  exact extractJson_wrap_core fs _ _ _ (by decide) (by decide) hclean
    (Or.inl hfail)

theorem extractJson_prose_rt (fs : JsonObj) (pre post : List Char)
    (hbt : containsSixBT (serJson (.obj fs)) = false)
    (hpre : ∀ c ∈ pre, proseChar c = true)
    (hpost : ∀ c ∈ post, proseChar c = true) :
    extractJson (pre ++ serJson (.obj fs) ++ post) = some (.obj fs) := by
  have hser : serJson (.obj fs) = lbraceC :: (serMembers fs ++ [rbraceC]) :=
    rfl
  have hpre2 : ∀ c ∈ ltrimJs pre, proseChar c = true :=
    fun c hc => hpre c (mem_of_mem_ltrimJs hc)
  have hpost2 : ∀ c ∈ rtrimJs post, proseChar c = true :=
    fun c hc => hpost c (mem_of_mem_rtrimJs hc)
  have hpreA : ∀ x ∈ ltrimJs pre, ¬(x = lbraceC) :=
    fun x hx => (proseChar_facts (hpre2 x hx)).1
  have hpostB : ∀ x ∈ rtrimJs post, ¬(x = rbraceC) :=
    fun x hx => (proseChar_facts (hpost2 x hx)).2.1
  have hcontains : containsSixBT (pre ++ serJson (.obj fs) ++ post) =
      false := by
    rw [List.append_assoc,
      containsSixBT_append_left pre _
        (fun c hc => (proseChar_facts (hpre c hc)).2.2.2.2.2.1)]
    exact containsSixBT_append_of_head _ _ hbt
      (containsSixBT_of_btFree post
        (fun c hc => (proseChar_facts (hpost c hc)).2.2.2.2.2.1))
      (fun hd hh =>
        (proseChar_facts (hpost hd (List.mem_of_mem_take hh))).2.2.2.2.2.1)
  have hclean : cleanOf (pre ++ serJson (.obj fs) ++ post) =
      ltrimJs pre ++ serJson (.obj fs) ++ rtrimJs post := by
    unfold cleanOf
    rw [stripBT_id _ hcontains, hser, jsTrim_around, ← hser]
  apply extractJson_wrap_core fs _ _ _ hpreA hpostB hclean
  cases hA : ltrimJs pre with
  | nil =>
    cases hB : rtrimJs post with
    | nil => exact Or.inr ⟨rfl, rfl⟩
    | cons b bs =>
      left
      rw [List.nil_append]
      unfold jsonParse
      have hb : isDigitC b = false :=
        (proseChar_facts (hpost2 b (by rw [hB]; simp))).2.2.2.2.2.2
      have hpv : parseValue ((serJson (.obj fs) ++ (b :: bs)).length + 1)
          (serJson (.obj fs) ++ (b :: bs)) = some (.obj fs, b :: bs) :=
        parseValue_ser _ _ _ (by simp [List.length_append]; omega)
          (by rw [noDigitHead_cons, hb]; rfl)
      rw [hpv]
      show (if skipWs (b :: bs) = [] then some (Json.obj fs) else none) =
        none
      obtain ⟨d, hdmem, hdws⟩ := rtrimJs_has_nonws post (by rw [hB]; simp)
      rw [hB] at hdmem
      rw [if_neg (skipWs_ne_nil_of_mem hdmem (isJsonWs_of_isJsWs_false hdws))]
  | cons a as =>
    left
    have haws : isJsWs a = false := dropWhile_head_false isJsWs pre a as hA
    have hap : proseChar a = true := hpre2 a (by rw [hA]; simp)
    rw [show (a :: as) ++ serJson (.obj fs) ++ rtrimJs post =
      a :: (as ++ serJson (.obj fs) ++ rtrimJs post) from by simp]
    apply jsonParse_cons_fail _ (isJsonWs_of_isJsWs_false haws) hap
    rw [hser]
    simp

/-! ## Lemmas about the chunker -/

theorem jsTrim_length_le (l : List Char) : (jsTrim l).length ≤ l.length := by
  unfold jsTrim ltrimJs rtrimJs
  have h1 := (List.dropWhile_suffix
    (l := (l.reverse.dropWhile isJsWs).reverse) isJsWs).length_le
  have h2 := (List.dropWhile_suffix (l := l.reverse) isJsWs).length_le
  simp only [List.length_reverse] at h1 h2 ⊢
  omega

theorem rtrimJs_shape (l : List Char) :
    rtrimJs l = [] ∨ ∃ a c, rtrimJs l = a ++ [c] ∧ isJsWs c = false := by
  cases hc : List.dropWhile isJsWs l.reverse with
  | nil => left; unfold rtrimJs; rw [hc]; rfl
  | cons e t =>
    right
    exact ⟨t.reverse, e, by unfold rtrimJs; rw [hc]; simp,
      dropWhile_head_false isJsWs l.reverse e t hc⟩

theorem ltrimJs_of_ltrimJs (l : List Char) :
    ltrimJs (ltrimJs l) = ltrimJs l := by
  cases hc : ltrimJs l with
  | nil => rfl
  | cons c t => exact ltrimJs_cons_of c t (dropWhile_head_false isJsWs l c t hc)

theorem jsTrim_idem (l : List Char) : jsTrim (jsTrim l) = jsTrim l := by
  unfold jsTrim
  suffices h : rtrimJs (ltrimJs (rtrimJs l)) = ltrimJs (rtrimJs l) by
    rw [h]
    exact ltrimJs_of_ltrimJs _
  rcases rtrimJs_shape l with h0 | ⟨a, c, hac, hcw⟩
  · rw [h0]; rfl
  · rw [hac, ltrimJs_append]
    by_cases ha : ltrimJs a = []
    · rw [if_pos ha, ltrimJs_cons_of c [] hcw]
      simpa using rtrimJs_snoc_of [] c hcw
    · rw [if_neg ha]
      exact rtrimJs_snoc_of _ c hcw

theorem chunkOk_push {S : List (List Char)} {maxSz K : Nat} {cur : List Char}
    (h : curOk S maxSz K cur) : chunkOk S maxSz K (jsTrim cur) := by
  rcases h with h0 | hlen | ⟨s, hs, hcur⟩ | ⟨s, prev, hs, hcur⟩
  · left
    rw [h0]
    simp [jsTrim, ltrimJs, rtrimJs]
  · left
    exact le_trans (jsTrim_length_le cur) hlen
  · right; left
    exact ⟨s, hs, by rw [hcur, jsTrim_idem]⟩
  · right; right
    exact ⟨s, prev, hs, by rw [hcur]⟩

theorem chunkLoop_inv (S : List (List Char)) (maxSz K : Nat) :
    ∀ (ss out : List (List Char)) (cur : List Char),
      (∀ x ∈ ss, x ∈ S) →
      (∀ c ∈ out, chunkOk S maxSz K c) →
      curOk S maxSz K cur →
      ∀ c ∈ chunkLoop maxSz K ss out cur, chunkOk S maxSz K c := by
  intro ss
  induction ss with
  | nil =>
    intro out cur _ hout hcur c hc
    simp only [chunkLoop] at hc
    by_cases h : jsTrim cur = []
    · rw [if_pos h] at hc
      exact hout c hc
    · rw [if_neg h] at hc
      rcases List.mem_append.mp hc with hm | hm
      · exact hout c hm
      · rw [List.mem_singleton] at hm
        subst hm
        exact chunkOk_push hcur
  | cons sent rest IH =>
    intro out cur hss hout hcur c hc
    simp only [chunkLoop] at hc
    by_cases hgd : cur.length + sent.length > maxSz ∧ cur ≠ []
    · rw [if_pos hgd] at hc
      refine IH _ _ (fun x hx => hss x (by simp [hx])) ?_ ?_ c hc
      · intro d hd
        rcases List.mem_append.mp hd with hm | hm
        · exact hout d hm
        · rw [List.mem_singleton] at hm
          subst hm
          exact chunkOk_push hcur
      · right; right; right
        exact ⟨sent, cur, hss sent (by simp), rfl⟩
    · rw [if_neg hgd] at hc
      refine IH _ _ (fun x hx => hss x (by simp [hx])) hout ?_ c hc
      by_cases h0 : cur = []
      · subst h0
        rw [if_neg (by simp)]
        right; right; left
        exact ⟨sent, hss sent (by simp), by simp⟩
      · rw [if_pos h0]
        right; left
        have hle : cur.length + sent.length ≤ maxSz := by
          rcases not_and_or.mp hgd with h | h
          · omega
          · exact absurd h0 (by simpa using h)
        have htr := jsTrim_length_le sent
        simp only [List.length_append, List.length_cons]
        omega

/-! ## Lemmas about the text normalizer -/

theorem collapseWs_all_ws :
    ∀ l : List Char, (∀ c ∈ l, isJsWs c = true) →
      collapseWs l = [] ∨ collapseWs l = [' '] := by
  intro l
  induction l with
  | nil => intro _; left; rfl
  | cons c r IH =>
    intro h
    have hc : isJsWs c = true := h c (by simp)
    right
    rcases IH (fun x hx => h x (by simp [hx])) with h0 | h0 <;>
      simp [collapseWs, hc, h0]

theorem preprocess_ws_only (l : List Char)
    (h : ∀ c ∈ l, isJsWs c = true) : preprocess l = [] := by
  unfold preprocess
  rcases collapseWs_all_ws l h with h0 | h0 <;> rw [h0] <;> rfl

/-! ## Lemmas about the field back-fill -/

theorem JsonObj.spineInd {motive : JsonObj → Prop} (h1 : motive .onil)
    (h2 : ∀ k v tl, motive tl → motive (.ocons k v tl)) : ∀ o, motive o
  | .onil => h1
  | .ocons k v tl => h2 k v tl (JsonObj.spineInd h1 h2 tl)

theorem objHasKey_iff (o : JsonObj) (k : List Char) :
    objHasKey o k = true ↔ jsGetMember o k ≠ none := by
  induction o using JsonObj.spineInd with
  | h1 => simp [objHasKey, jsGetMember]
  | h2 k2 v tl IH =>
    simp only [objHasKey, jsGetMember, Bool.or_eq_true, decide_eq_true_eq]
    cases hm : jsGetMember tl k with
    | some r => simp [hm] at IH; simp [IH]
    | none =>
      simp [hm] at IH
      by_cases hk : k2 = k <;> simp [hk, IH]

theorem jsGetMember_objSnoc (o : JsonObj) (key : List Char) (v : Json)
    (k : List Char) :
    jsGetMember (objSnoc o key v) k =
      if key = k then some v else jsGetMember o k := by
  induction o using JsonObj.spineInd with
  | h1 => simp [objSnoc, jsGetMember]
  | h2 k2 w tl IH =>
    simp only [objSnoc, jsGetMember, IH]
    by_cases hk : key = k
    · rw [if_pos hk, if_pos hk]
    · rw [if_neg hk, if_neg hk]

theorem objHasKey_false_getMember {o : JsonObj} {k0 : List Char}
    (h : objHasKey o k0 = false) : jsGetMember o k0 = none := by
  by_cases hg : jsGetMember o k0 = none
  · exact hg
  · exact absurd ((objHasKey_iff o k0).mpr hg) (by simp [h])

theorem backfill_preserves (ks : List (List Char)) :
    ∀ (o : JsonObj) (k : List Char) (v : Json), jsGetMember o k = some v →
      jsGetMember
        (ks.foldl (fun o k => if objHasKey o k then o else objSnoc o k .null) o)
        k = some v := by
  induction ks with
  | nil => intro o k v h; simpa using h
  | cons k0 kt IH =>
    intro o k v h
    rw [List.foldl_cons]
    cases hk0 : objHasKey o k0 with
    | true => rw [if_pos rfl]; exact IH o k v h
    | false =>
      rw [if_neg (by simp)]
      apply IH
      rw [jsGetMember_objSnoc]
      have hnone : jsGetMember o k0 = none := objHasKey_false_getMember hk0
      have hne : ¬(k0 = k) := by
        intro he
        rw [he, h] at hnone
        exact absurd hnone (by simp)
      rw [if_neg hne]
      exact h

theorem backfill_fills (ks : List (List Char)) :
    ∀ (o : JsonObj) (k : List Char), k ∈ ks →
      jsGetMember
        (ks.foldl (fun o k => if objHasKey o k then o else objSnoc o k .null) o)
        k = some ((jsGetMember o k).getD .null) := by
  induction ks with
  | nil => intro o k h; simp at h
  | cons k0 kt IH =>
    intro o k hk
    rw [List.foldl_cons]
    cases hm : jsGetMember o k with
    | some v =>
      have hstep : jsGetMember
          (if objHasKey o k0 then o else objSnoc o k0 .null) k = some v := by
        cases hk0 : objHasKey o k0 with
        | true => rw [if_pos rfl]; exact hm
        | false =>
          rw [if_neg (by simp), jsGetMember_objSnoc]
          have hnone : jsGetMember o k0 = none := objHasKey_false_getMember hk0
          have hne : ¬(k0 = k) := by
            intro he
            rw [he, hm] at hnone
            exact absurd hnone (by simp)
          rw [if_neg hne]
          exact hm
      simp only [Option.getD_some]
      exact backfill_preserves kt _ k v hstep
    | none =>
      simp only [Option.getD_none]
      by_cases hk0 : k0 = k
      · subst hk0
        have hkey : objHasKey o k0 = false := by
          cases hh : objHasKey o k0
          · rfl
          · exact absurd hm ((objHasKey_iff o k0).mp hh)
        rw [hkey, if_neg (by simp)]
        apply backfill_preserves
        rw [jsGetMember_objSnoc, if_pos rfl]
      · have hmem : k ∈ kt := by
          rcases List.mem_cons.mp hk with h | h
          · exact absurd h.symm hk0
          · exact h
        have hstep : jsGetMember
            (if objHasKey o k0 then o else objSnoc o k0 .null) k = none := by
          cases hh : objHasKey o k0 with
          | true => rw [if_pos rfl]; exact hm
          | false =>
            rw [if_neg (by simp), jsGetMember_objSnoc, if_neg hk0]
            exact hm
        have hres := IH (if objHasKey o k0 then o else objSnoc o k0 .null) k
          hmem
        rw [hstep] at hres
        simpa using hres

/-! ## Lemmas about the submittal normalization -/

theorem normSub_obj (fs : JsonObj) :
    normSub (.obj fs) = some (.obj (.ocons ("item".toList) (itemD fs)
      (.ocons ("page".toList) (pageD fs)
        (.ocons ("reason".toList) (reasonD fs) .onil)))) := by
  simp only [normSub, jsPropOr, jsPageOf, jsProp, itemD, pageD, reasonD]
  cases hi : jsGetMember fs ("item".toList) <;>
    cases hp : jsGetMember fs ("page".toList) <;>
      cases hr : jsGetMember fs ("reason".toList) <;> simp

/-! ## Helper characterizations of the request flows -/

theorem processEvents_trace (text s f : List Char) (h : text ≠ []) :
    providerTrace (processEvents text s f) =
      [Ev.callGemini .submittalsPrompt, Ev.sleep 15000,
       Ev.callGemini .fieldsPrompt] := by
  unfold processEvents providerTrace
  rw [if_neg h]
  cases hf : finishProcess s f <;> simp [List.filter]

theorem summarizeSync_events_spec (raw s f : List Char)
    (h : ¬(preprocess raw = [])) :
    (summarizeSync true raw s f).events =
      [Ev.callGemini .submittalsPrompt, Ev.sleep 15000,
       Ev.callGemini .fieldsPrompt] := by
  unfold summarizeSync
  simp only [Bool.not_true, Bool.false_eq_true, if_false, if_neg h]
  cases e1 : extractJson f with
  | none => rfl
  | some fd =>
    dsimp only
    cases e2 : backfillJson fd with
    | none => rfl
    | some fd2 =>
      dsimp only
      cases e3 : extractJson s with
      | none => rfl
      | some sd =>
        dsimp only
        cases e4 : submittalsArrayOf sd with
        | none => rfl
        | some subs => rfl

theorem summarizeSync_empty_spec (raw s f : List Char)
    (h : preprocess raw = []) :
    summarizeSync true raw s f = ⟨[], 400, none⟩ := by
  unfold summarizeSync
  simp only [Bool.not_true, Bool.false_eq_true, if_false, if_pos h]

theorem summarizeSync_saved_sub (fp : Bool) (raw s f : List Char)
    (r : ContractRec) (h : (summarizeSync fp raw s f).saved = some r) :
    ∃ sd, extractJson s = some sd ∧
      submittalsArrayOf sd = some r.submittals := by
  cases fp with
  | false => simp [summarizeSync] at h
  | true =>
    unfold summarizeSync at h
    simp only [Bool.not_true, Bool.false_eq_true, if_false] at h
    by_cases ht : preprocess raw = []
    · rw [if_pos ht] at h; simp at h
    · rw [if_neg ht] at h
      cases e1 : extractJson f with
      | none => rw [e1] at h; simp at h
      | some fd =>
        rw [e1] at h
        dsimp only at h
        cases e2 : backfillJson fd with
        | none => rw [e2] at h; simp at h
        | some fd2 =>
          rw [e2] at h
          dsimp only at h
          cases e3 : extractJson s with
          | none => rw [e3] at h; simp at h
          | some sd =>
            rw [e3] at h
            dsimp only at h
            cases e4 : submittalsArrayOf sd with
            | none => rw [e4] at h; simp at h
            | some subs =>
              rw [e4] at h
              dsimp only at h
              simp only [Option.some.injEq] at h
              refine ⟨sd, rfl, ?_⟩
              rw [e4, ← h]

theorem summarizeAsync_empty_spec (name raw s f : List Char)
    (h : preprocess raw = []) :
    summarizeAsync true name raw s f =
      ⟨200, some { pdfName := name },
       [Ev.setStatus .processing, Ev.setStatus .failed],
       some { pdfName := name, status := .failed,
              errorMessage := some ("Empty or non-text PDF".toList) }⟩ := by
  unfold summarizeAsync processEvents processFinal
  simp [h]

/-! ## Claim theorems -/

/-- Claim C1, counterexample: the fence-stripping step deletes runs of six
backticks, so the object whose single field value is six backticks does not
survive the round trip through `extractJson` even when correctly fenced. -/
theorem c1_counterexample : extractJson (fenced (serJson exBT)) ≠ some exBT := by
  decide

/-- Claim C1 (amended): for every JSON object whose serialization contains
no run of six consecutive backticks, `extractJson` recovers the object both
from a markdown-fenced payload and from a payload wrapped in leading and
trailing prose. -/
theorem c1_round_trip :
    ∀ (fs : JsonObj) (pre post : List Char),
      containsSixBT (serJson (.obj fs)) = false →
      (∀ c ∈ pre, proseChar c = true) →
      (∀ c ∈ post, proseChar c = true) →
      extractJson (fenced (serJson (.obj fs))) = some (.obj fs) ∧
      extractJson (pre ++ serJson (.obj fs) ++ post) = some (.obj fs) :=
  fun fs pre post hbt hpre hpost =>
    ⟨extractJson_fenced_rt fs hbt,
     extractJson_prose_rt fs pre post hbt hpre hpost⟩

/-- Witness for C1: the round trip at a concrete object, fence and prose. -/
theorem c1_round_trip_witness :
    extractJson (fenced (serJson exObj)) = some exObj ∧
    extractJson (("Here is the JSON:\n".toList) ++ serJson exObj ++
      ("\nThanks.\n".toList)) = some exObj :=
  c1_round_trip (.ocons ("a".toList) (.str ("x".toList)) .onil)
    ("Here is the JSON:\n".toList) ("\nThanks.\n".toList)
    (by decide) (by decide) (by decide)

/-- Claim C2, counterexample: in both the combined synchronous flow and the
asynchronous background task, the provider is called for the submittals
first and for the fixed fields second, not the other way around. -/
theorem c2_counterexample :
    callsOf (processEvents ("a".toList) [] []) =
      [PromptKind.submittalsPrompt, PromptKind.fieldsPrompt] ∧
    callsOf ((summarizeSync true ("a".toList) [] []).events) =
      [PromptKind.submittalsPrompt, PromptKind.fieldsPrompt] ∧
    [PromptKind.submittalsPrompt, PromptKind.fieldsPrompt] ≠
      [PromptKind.fieldsPrompt, PromptKind.submittalsPrompt] := by decide

/-- Claim C2 (amended): on non-empty text both flows call the provider for
the submittals first and, after the fixed 15000 ms delay, a second time for
the fixed fields. -/
theorem c2_call_order :
    ∀ (text raw subResp fldResp subResp2 fldResp2 : List Char),
      text ≠ [] → ¬(preprocess raw = []) →
      providerTrace (processEvents text subResp fldResp) =
        [Ev.callGemini .submittalsPrompt, Ev.sleep 15000,
         Ev.callGemini .fieldsPrompt] ∧
      providerTrace ((summarizeSync true raw subResp2 fldResp2).events) =
        [Ev.callGemini .submittalsPrompt, Ev.sleep 15000,
         Ev.callGemini .fieldsPrompt] := by
  intro text raw s f s2 f2 ht hr
  refine ⟨processEvents_trace text s f ht, ?_⟩
  rw [summarizeSync_events_spec raw s2 f2 hr]
  rfl

/-- Witness for C2: the call order at concrete inputs. -/
theorem c2_call_order_witness :
    providerTrace (processEvents ("a".toList) [] []) =
      [Ev.callGemini .submittalsPrompt, Ev.sleep 15000,
       Ev.callGemini .fieldsPrompt] ∧
    providerTrace ((summarizeSync true ("a".toList) [] []).events) =
      [Ev.callGemini .submittalsPrompt, Ev.sleep 15000,
       Ev.callGemini .fieldsPrompt] :=
  c2_call_order ("a".toList) ("a".toList) [] [] [] []
    (by decide) (by decide)

/-- Claim C3, counterexample: on the input "ab.cd.e." with maximum chunk
size 6, the chunker emits a chunk of length 7 that is not a single
oversized sentence (no sentence of the input is longer than 6). -/
theorem c3_counterexample : 6 < exTxt.length ∧
    ¬(∀ c ∈ smartChunks exTxt 6 300, c.length ≤ 6 ∨
      ∃ s, s ∈ sentencesUsed exTxt ∧ (c = s ∨ c = jsTrim s) ∧
        6 < s.length) := by decide

/-- Claim C3 (amended): for every input longer than the maximum chunk
size, every chunk either has length at most max + 1 (the joining space can
exceed the maximum by one) or is the trim of a single matched sentence or
of at most `ov / 6` overlap words carried from the previous accumulator
followed by a single sentence. -/
theorem c3_chunk_bound :
    ∀ (txt : List Char) (maxSz ov : Nat), maxSz < txt.length →
      ∀ c ∈ smartChunks txt maxSz ov,
        chunkOk (sentencesUsed txt) maxSz (ov / 6) c := by
  intro txt maxSz ov h c hc
  unfold smartChunks at hc
  rw [if_neg (by omega)] at hc
  exact chunkLoop_inv (sentencesUsed txt) maxSz (ov / 6) (sentencesUsed txt)
    [] [] (fun x hx => hx) (by simp) (Or.inl rfl) c hc

/-- Witness for C3: the invariant holds for both chunks of the concrete
oversized input. -/
theorem c3_chunk_bound_witness :
    chunkOk (sentencesUsed exTxt) 6 (300 / 6) ("ab. cd.".toList) ∧
    chunkOk (sentencesUsed exTxt) 6 (300 / 6) ("ab. cd. e.".toList) :=
  ⟨c3_chunk_bound exTxt 6 300 (by decide) _ (by decide),
   c3_chunk_bound exTxt 6 300 (by decide) _ (by decide)⟩

/-- Claim C4: a text no longer than the maximum chunk size is returned
unchanged as the single chunk. -/
theorem c4_small_text :
    ∀ (txt : List Char) (maxSz ov : Nat),
      txt.length ≤ maxSz → smartChunks txt maxSz ov = [txt] := by
  intro txt maxSz ov h
  unfold smartChunks
  rw [if_pos h]

/-- Witness for C4 at a concrete short text. -/
theorem c4_small_text_witness :
    smartChunks ("hello".toList) 8000 300 = ["hello".toList] :=
  c4_small_text ("hello".toList) 8000 300 (by decide)

/-- Claim C5, counterexample: the fixed field list has 20 keys, not 19. -/
theorem c5_counterexample : FIELD_LIST.length ≠ 19 := by decide

/-- Claim C5 (amended): the back-fill loop over the 20 fixed field keys
maps every fixed key absent from the parsed object to null and leaves every
present key bound to its original value. -/
theorem c5_backfill :
    ∀ fs : JsonObj,
      (∀ k ∈ FIELD_LIST, jsGetMember (backfillObj fs) k =
        some ((jsGetMember fs k).getD .null)) ∧
      (∀ (k : List Char) (v : Json), jsGetMember fs k = some v →
        jsGetMember (backfillObj fs) k = some v) :=
  fun fs =>
    ⟨fun k hk => backfill_fills FIELD_LIST fs k hk,
     fun k v hv => backfill_preserves FIELD_LIST fs k v hv⟩

/-- Witness for C5 on an object carrying only ClientName. -/
theorem c5_backfill_witness :
    jsGetMember (backfillObj (.ocons ("ClientName".toList)
      (.str ("Acme".toList)) .onil)) ("FundingAgency".toList) =
      some ((jsGetMember (.ocons ("ClientName".toList)
        (.str ("Acme".toList)) .onil) ("FundingAgency".toList)).getD .null) ∧
    jsGetMember (backfillObj (.ocons ("ClientName".toList)
      (.str ("Acme".toList)) .onil)) ("ClientName".toList) =
      some (.str ("Acme".toList)) :=
  ⟨(c5_backfill _).1 _ (by decide), (c5_backfill _).2 _ _ (by decide)⟩

/-- Claim C6, counterexample: a braceless input whose cleaned text is valid
JSON makes `extractJson` return a value instead of failing. -/
theorem c6_counterexample :
    indexOfChar (cleanOf ("7".toList)) lbraceC = none ∧
    extractJson ("7".toList) = some (.num 7) := by decide

/-- Claim C6 (amended): when the direct parse of the cleaned text fails,
`extractJson` fails on every input without a brace pair and on every input
whose brace-delimited substring is not valid JSON. -/
theorem c6_extract_fail :
    ∀ t : List Char, jsonParse (cleanOf t) = none →
      ((indexOfChar (cleanOf t) lbraceC = none ∨
        lastIndexOfChar (cleanOf t) rbraceC = none) → extractJson t = none) ∧
      (∀ i j, indexOfChar (cleanOf t) lbraceC = some i →
        lastIndexOfChar (cleanOf t) rbraceC = some j →
        jsonParse (jsSlice (cleanOf t) i (j + 1)) = none →
        extractJson t = none) := by
  intro t hp
  constructor
  · intro hij
    simp only [extractJson, hp]
    rcases hij with hh | hh
    · rw [hh]
    · rw [hh]
      cases hl : indexOfChar (cleanOf t) lbraceC <;> rfl
  · intro i j hi hj hs
    simp only [extractJson, hp]
    rw [hi, hj]
    exact hs

/-- Witness for C6: a braceless non-JSON input and an invalid
brace-delimited substring both make `extractJson` fail. -/
theorem c6_extract_fail_witness :
    extractJson ("abc".toList) = none ∧
    extractJson [lbraceC, 'x', rbraceC] = none :=
  ⟨(c6_extract_fail ("abc".toList) (by decide)).1 (Or.inl (by decide)),
   (c6_extract_fail [lbraceC, 'x', rbraceC] (by decide)).2 0 2
     (by decide) (by decide) (by decide)⟩

/-- Claim C7, counterexample: in the asynchronous variant an upload whose
text is whitespace-only still creates a record and answers 200, not 400. -/
theorem c7_counterexample :
    (summarizeAsync true ("x".toList) (" ".toList) [] []).code = 200 ∧
    (summarizeAsync true ("x".toList) (" ".toList) [] []).created ≠ none := by
  decide

/-- Claim C7 (amended): for a whitespace-only PDF text the synchronous flow
answers 400 without saving a record or calling the provider, while the
asynchronous flow creates a record, makes no provider call in the
background, and marks the record failed. -/
theorem c7_empty_upload :
    ∀ (raw name subResp fldResp subResp2 fldResp2 : List Char),
      (∀ c ∈ raw, isJsWs c = true) →
      (summarizeSync true raw subResp fldResp).code = 400 ∧
      (summarizeSync true raw subResp fldResp).saved = none ∧
      (summarizeSync true raw subResp fldResp).events = [] ∧
      callsOf (summarizeAsync true name raw subResp2 fldResp2).events = [] ∧
      (summarizeAsync true name raw subResp2 fldResp2).finalRecord =
        some { pdfName := name, status := .failed,
               errorMessage := some ("Empty or non-text PDF".toList) } := by
  intro raw name s f s2 f2 h
  have hp := preprocess_ws_only raw h
  rw [summarizeSync_empty_spec raw s f hp,
    summarizeAsync_empty_spec name raw s2 f2 hp]
  exact ⟨rfl, rfl, rfl, rfl, rfl⟩

/-- Witness for C7 at a concrete whitespace-only text. -/
theorem c7_empty_upload_witness :
    (summarizeSync true ("  ".toList) [] []).code = 400 ∧
    (summarizeSync true ("  ".toList) [] []).saved = none ∧
    (summarizeSync true ("  ".toList) [] []).events = [] ∧
    callsOf (summarizeAsync true ("x".toList) ("  ".toList) [] []).events =
      [] ∧
    (summarizeAsync true ("x".toList) ("  ".toList) [] []).finalRecord =
      some { pdfName := ("x".toList), status := .failed,
             errorMessage := some ("Empty or non-text PDF".toList) } :=
  c7_empty_upload ("  ".toList) ("x".toList) [] [] [] [] (by decide)

/-- Claim C8: along any run of the asynchronous variant the record status
only moves forward through pending, processing and a terminal status. -/
theorem c8_status_forward :
    ∀ text subResp fldResp : List Char,
      List.Chain' forwardStep (statusHistory text subResp fldResp) := by
  intro text s f
  unfold statusHistory processEvents
  by_cases ht : text = []
  · rw [if_pos ht]
    simp [List.filterMap, List.chain'_cons, forwardStep]
  · rw [if_neg ht]
    cases hf : finishProcess s f <;>
      simp [List.filterMap, List.chain'_cons, forwardStep]

/-- Claim C9, counterexample: the combined synchronous handler in
gem3-workingWithHistory.js applies only the empty-array default and saves
the parsed submittal elements unchanged, so an element with no page and no
reason member is persisted exactly as parsed, without normalization. -/
theorem c9_counterexample :
    ((summarizeSync true ("x".toList) exSubResp
        (serJson (.obj .onil))).saved.map ContractRec.submittals) =
      some [.obj exSub] ∧
    objHasKey exSub ("page".toList) = false ∧
    objHasKey exSub ("reason".toList) = false := by
  refine ⟨by decide, by decide, by decide⟩

/-- Claim C9 (amended): in the asynchronous variant a missing submittals key
defaults to the empty sequence and every element is normalized so that a
missing item, page or reason member becomes the empty string, null and the
empty string; the combined synchronous flow instead applies only the
empty-array default and persists the parsed elements unchanged. -/
theorem c9_submittal_defaults :
    ∀ fs : JsonObj,
      (jsGetMember fs ("submittals".toList) = none →
        submittalsArrayOf (.obj fs) = some []) ∧
      normSub (.obj fs) = some (.obj (.ocons ("item".toList) (itemD fs)
        (.ocons ("page".toList) (pageD fs)
          (.ocons ("reason".toList) (reasonD fs) .onil)))) ∧
      (jsGetMember fs ("item".toList) = none → itemD fs = .str []) ∧
      (jsGetMember fs ("page".toList) = none → pageD fs = .null) ∧
      (jsGetMember fs ("reason".toList) = none → reasonD fs = .str []) ∧
      (∀ (fp : Bool) (raw sub fld : List Char) (r : ContractRec),
        (summarizeSync fp raw sub fld).saved = some r →
        ∃ sd, extractJson sub = some sd ∧
          submittalsArrayOf sd = some r.submittals) := by
  intro fs
  refine ⟨?_, normSub_obj fs, ?_, ?_, ?_, ?_⟩
  · intro h; simp at h; simp [submittalsArrayOf, jsProp, h]
  · intro h; simp at h; simp [itemD, h]
  · intro h; simp at h; simp [pageD, h]
  · intro h; simp at h; simp [reasonD, h]
  · intro fp raw sub fld r h; exact summarizeSync_saved_sub fp raw sub fld r h

/-- Witness for C9 at the empty element object and at a concrete run of the
synchronous handler. -/
theorem c9_submittal_defaults_witness :
    submittalsArrayOf (.obj .onil) = some [] ∧
    normSub (.obj .onil) = some (.obj (.ocons ("item".toList) (itemD .onil)
      (.ocons ("page".toList) (pageD .onil)
        (.ocons ("reason".toList) (reasonD .onil) .onil)))) ∧
    itemD .onil = .str [] ∧ pageD .onil = .null ∧ reasonD .onil = .str [] ∧
    ∃ sd, extractJson exSubResp = some sd ∧
      submittalsArrayOf sd = some
        ((summarizeSync true ("x".toList) exSubResp
          (serJson (.obj .onil))).saved.getD { pdfName := [] }).submittals :=
  ⟨(c9_submittal_defaults .onil).1 rfl, (c9_submittal_defaults .onil).2.1,
   (c9_submittal_defaults .onil).2.2.1 rfl,
   (c9_submittal_defaults .onil).2.2.2.1 rfl,
   (c9_submittal_defaults .onil).2.2.2.2.1 rfl,
   (c9_submittal_defaults .onil).2.2.2.2.2 true ("x".toList) exSubResp
     (serJson (.obj .onil)) _ (by decide)⟩

/-- Claim C10: the status endpoint reports hasSubmittals exactly when the
stored submittal list is non-empty, and reports hasFields whenever a fields
object is stored. -/
theorem c10_status_view :
    ∀ r : ContractRec,
      ((statusEndpoint r).hasSubmittals = true ↔ r.submittals ≠ []) ∧
      (r.status = .completed → r.submittals = [] →
        (statusEndpoint r).hasSubmittals = false) ∧
      (∀ fs : JsonObj, r.fields = some (.obj fs) →
        (statusEndpoint r).hasFields = true) := by
  intro r
  refine ⟨?_, ?_, ?_⟩
  · simp [statusEndpoint, List.length_pos]
  · intro _ h; simp [statusEndpoint, h]
  · intro fs h; simp [statusEndpoint, h, jsTruthy]

/-- Witness for C10 on concrete records. -/
theorem c10_status_view_witness :
    (statusEndpoint { pdfName := [], status := .completed }).hasSubmittals =
      false ∧
    (statusEndpoint
      { pdfName := [], fields := some (.obj .onil) }).hasFields = true :=
  ⟨(c10_status_view _).2.1 rfl rfl, (c10_status_view _).2.2 .onil rfl⟩
